import Mathlib

set_option maxRecDepth 8000

namespace RulesGo

/-!
Shallow embedding of the rules_go standard-library provisioning subsystem:

* `go/private/actions/stdlib.bzl` — the reuse-vs-rebuild decision, the CGO
  environment wiring and the remote-execution zip packaging of SDK inputs.
* `go/tools/builders/env.go` — flag checking, the lazily created work
  directory, parameter-file expansion, path absolutization, and the file /
  archive replication engine.

Paths are modelled as `String`s over their character lists (the sources only
manipulate ASCII paths, where Go's byte indexing and Lean's character indexing
agree).  Filesystem effects are modelled either as an explicit effect trace
(`FSOp`, for the zip replicator) or as a finite map from file paths to file
data (`FS`, for the filesystem replicator); both are deterministic renderings
of the I/O the source performs.
-/

/-- Boolean test that the first character list is an initial segment of the
second.  Models Go `strings.HasPrefix` on the underlying bytes. -/
def listPre : List Char → List Char → Bool
  | [], _ => true
  | _ :: _, [] => false
  | a :: as, b :: bs => a == b && listPre as bs

/-- Go `strings.HasPrefix s pre`: `pre` is an initial segment of `s`. -/
def strPre (pre s : String) : Bool := listPre pre.data s.data

/-- Go slice expression `s[n:]` (ASCII: byte index = character index). -/
def strDrop (s : String) (n : Nat) : String := ⟨s.data.drop n⟩

/-- Go `len(s)` (ASCII: byte length = character count). -/
def strLenC (s : String) : Nat := s.data.length

/-- Go `filepath.Join(a, b)` for clean slash-separated relative components
(no trailing slashes, no `.`/`..` cleanup needed on the inputs used here). -/
def joinP (a b : String) : String := a ++ "/" ++ b

/-- Go `filepath.Dir` (equally, Bazel `File.dirname`) for clean slash
separated paths: everything before the final slash, `"."` when there is no
slash. -/
def dirname (p : String) : String :=
  match p.data.reverse.dropWhile (fun c => !(c == '/')) with
  | [] => "."
  | _ :: t => ⟨t.reverse⟩

/-- The path `p` lies at or below the root `root` (it is `root` itself or has
`root ++ "/"` as a prefix).  This is the set of paths affected by
`os.RemoveAll(root)`. -/
def underEqB (root p : String) : Bool := root == p || strPre (root ++ "/") p

/-- The path `p` lies strictly below the root `root`. -/
def strictUnderB (root p : String) : Bool := strPre (root ++ "/") p

/-- First-match association-list lookup (the model of reading a file, or of a
Starlark dict access). -/
def lookupA {α : Type} : List (String × α) → String → Option α
  | [], _ => none
  | kv :: r, k => if kv.1 == k then some kv.2 else lookupA r k

/-- Single-key Starlark dict update: replace the value when the key is
present, append the pair otherwise. -/
def updateOne {α : Type} (d : List (String × α)) (k : String) (v : α) :
    List (String × α) :=
  if d.any (fun kv => kv.1 == k) then
    d.map (fun kv => if kv.1 == k then (k, v) else kv)
  else d ++ [(k, v)]

/-- Starlark `dict.update` with a literal dict, applied key by key. -/
def updateEnv {α : Type} (d : List (String × α)) :
    List (String × α) → List (String × α)
  | [] => d
  | kv :: r => updateEnv (updateOne d kv.1 kv.2) r

/-- Go `strings.Join(l, " ")`. -/
def joinSpace : List String → String
  | [] => ""
  | [s] => s
  | s :: r => s ++ " " ++ joinSpace r

/-! ## Data model of `stdlib.bzl` -/

/-- Target-configuration vector `go.mode` (from `mode.bzl`): target OS and
architecture, the race / msan / pure flags and the link mode string. -/
structure Mode where
  goos : String
  goarch : String
  race : Bool
  msan : Bool
  pure : Bool
  link : String
deriving DecidableEq

/-- SDK descriptor `go.sdk`: native OS/arch, the root marker file, the
precompiled library archives, and the input file sets.  Files are modelled by
their paths; the field `goBin` models `go.sdk.go` (the Go binary). -/
structure Sdk where
  goos : String
  goarch : String
  root_file : String
  libs : List String
  srcs : List String
  headers : List String
  tools : List String
  goBin : String
  package_list : String
deriving DecidableEq

/-- Slice of the cc toolchain consumed by `_build_stdlib`
(`go.cgo_tools.c_compiler_path` and `go.cgo_tools.c_compile_options`). -/
structure CgoTools where
  c_compiler_path : String
  c_compile_options : List String
deriving DecidableEq

/-- Modelled from the spec: `LINKMODE_NORMAL`, the normal link mode constant
loaded from `mode.bzl` (a file not present in the sources). -/
def LINKMODE_NORMAL : String := "normal"

/-- The toolchain context object `go` threaded through `stdlib.bzl`.
`extldflags` models the list returned by `extldflags_from_cc_toolchain(go)`
and `linkModeArgs` the list returned by `link_mode_args(go.mode)`; both
functions live in `mode.bzl`, which is not among the sources, so they are
carried as opaque context data (modelled from the spec: "native compile/link
flags collected from the active cross-compilation toolchain" and "link-mode
derived flags").  `out_pkg`, `out_src`, `out_root` and `out_sdkzip` are the
paths of the files declared by `go.declare_directory(go, path = "pkg")`,
`go.declare_directory(go, path = "src")`, `go.declare_file(go, path = "ROOT")`
and `go.actions.declare_file("sdk.zip")`. -/
structure GoCtx where
  mode : Mode
  sdk : Sdk
  env : List (String × String)
  cgo_tools : CgoTools
  extldflags : List String
  linkModeArgs : List String
  zipper : Option String
  crosstool : List String
  builder : String
  out_pkg : String
  out_src : String
  out_root : String
  out_sdkzip : String
deriving DecidableEq

/-- Provider `GoStdLib(root_file, libs)`. -/
structure GoStdLib where
  root_file : String
  libs : List String
deriving DecidableEq

/-- A declarative build step issued through the action API:
`go.actions.write` or `go.actions.run` (mnemonic, inputs, outputs,
executable, argument list, environment map). -/
inductive Action where
  | write (file : String) (content : String)
  | run (mnemonic : String) (inputs : List String) (outputs : List String)
      (executable : String) (args : List String) (env : List (String × String))
deriving DecidableEq

/-- Whether an action is a `go.actions.run` build action. -/
def isRunAction : Action → Bool
  | .run _ _ _ _ _ _ => true
  | _ => false

/-- `_should_use_sdk_stdlib(go)` from `stdlib.bzl`. -/
def should_use_sdk_stdlib (go : GoCtx) : Bool :=
  go.mode.goos == go.sdk.goos &&
  go.mode.goarch == go.sdk.goarch &&
  !go.mode.race &&
  !go.mode.msan &&
  !go.mode.pure &&
  go.mode.link == LINKMODE_NORMAL

/-- `_sdk_stdlib(go)` from `stdlib.bzl`. -/
def sdk_stdlib (go : GoCtx) : GoStdLib :=
  { root_file := go.sdk.root_file, libs := go.sdk.libs }

/-- `sdk_inputs = go.sdk.srcs + go.sdk.headers + go.sdk.tools + [go.sdk.go,
go.sdk.root_file]` from `_build_stdlib`. -/
def sdkInputs (go : GoCtx) : List String :=
  go.sdk.srcs ++ go.sdk.headers ++ go.sdk.tools ++ [go.sdk.goBin, go.sdk.root_file]

/-- The builder argument list of `_build_stdlib` before the optional
`-sdkzip` flag: `-out <root dir>`, `-race` when requested, and the link-mode
arguments. -/
def stdlibArgs (go : GoCtx) : List String :=
  ["-out", dirname go.out_root] ++
    (if go.mode.race then ["-race"] else []) ++ go.linkModeArgs

/-- The environment map of the `GoStdlib` action: `go.env` updated with
`CGO_ENABLED=0` in pure mode, otherwise with `CGO_ENABLED=1`, `CC`,
`CGO_CFLAGS` and `CGO_LDFLAGS` from the cc toolchain. -/
def stdlibEnv (go : GoCtx) : List (String × String) :=
  if go.mode.pure then updateEnv go.env [("CGO_ENABLED", "0")]
  else
    updateEnv go.env
      [("CGO_ENABLED", "1"),
       ("CC", go.cgo_tools.c_compiler_path),
       ("CGO_CFLAGS", joinSpace go.cgo_tools.c_compile_options),
       ("CGO_LDFLAGS", joinSpace go.extldflags)]

/-- The per-input zip arguments `rel+"="+f.path` where
`rel = f.path[prefixlen:]` and `prefixlen = len(go.sdk.root_file.dirname) + 1`
(entries are named relative to the SDK root). -/
def zipEntryArgs (go : GoCtx) : List String :=
  (sdkInputs go).map
    (fun f => strDrop f (strLenC (dirname go.sdk.root_file) + 1) ++ "=" ++ f)

/-- `_build_stdlib(go)` from `stdlib.bzl`, returning the `GoStdLib` provider
together with the list of actions issued, in order: the eager write of the
empty `ROOT` marker, the optional `GoStdlibZip` packaging action (when
`go.zipper` is set), then the main `GoStdlib` build action. -/
def build_stdlib (go : GoCtx) : GoStdLib × List Action :=
  let writeAct := Action.write go.out_root ""
  match go.zipper with
  | some z =>
    let zipAct := Action.run "GoStdlibZip" (sdkInputs go) [go.out_sdkzip] z
      ("cC" :: go.out_sdkzip :: zipEntryArgs go) []
    let mainAct := Action.run "GoStdlib"
      (go.out_sdkzip :: (go.crosstool ++ [go.sdk.package_list]))
      [go.out_pkg, go.out_src] go.builder
      (stdlibArgs go ++ ["-sdkzip", go.out_sdkzip]) (stdlibEnv go)
    ({ root_file := go.out_root, libs := [go.out_pkg] },
     [writeAct, zipAct, mainAct])
  | none =>
    let mainAct := Action.run "GoStdlib"
      (sdkInputs go ++ go.crosstool ++ [go.sdk.package_list])
      [go.out_pkg, go.out_src] go.builder (stdlibArgs go) (stdlibEnv go)
    ({ root_file := go.out_root, libs := [go.out_pkg] }, [writeAct, mainAct])

/-- `_stdlib_library_to_source` from `stdlib.bzl`: the provider stored into
`source["stdlib"]`, paired with the build actions issued while producing
it. -/
def stdlib_library_to_source (go : GoCtx) : GoStdLib × List Action :=
  if should_use_sdk_stdlib go then (sdk_stdlib go, []) else build_stdlib go

/-! ## Data model of `env.go` (environment layer) -/

/-- The `env` struct of `env.go`: flag-configured fields plus the lazily
created work directory path. -/
structure GoEnv where
  sdk : String
  sdkzip : String
  installSuffix : String
  verbose : Bool
  workDirPath : String
  shouldPreserveWorkDir : Bool
deriving DecidableEq

/-- The env produced by `envFlags` before any flag is supplied: every flag
has its registered default. -/
def envFlagsDefaults : GoEnv :=
  { sdk := "", sdkzip := "", installSuffix := "", verbose := false,
    workDirPath := "", shouldPreserveWorkDir := false }

/-- `env.checkFlags`: the post-parse validity check, returning the error
message when it fails and `none` when it passes. -/
def checkFlags (e : GoEnv) : Option String :=
  if e.sdk == "" then some "-sdk was not set" else none

/-- A filesystem effect performed by the builders: directory creation
(`os.MkdirAll`), single-entry removal (`os.Remove`), recursive removal
(`os.RemoveAll`), or a file write with a final permission-bit update
(`os.Create` + `io.Copy` + `os.Chmod`). -/
inductive FSOp where
  | mkdirAll (dir : String)
  | remove (path : String)
  | removeAll (path : String)
  | writeFile (path : String) (content : String) (fmode : Nat)
deriving DecidableEq

/-- The cleanup function returned by `workDir`: either a no-op closure or a
closure that calls `os.RemoveAll` on the recorded path. -/
inductive CleanupFn where
  | noop
  | removeTree (path : String)
deriving DecidableEq

/-- The filesystem effects of invoking a cleanup function. -/
def runCleanup : CleanupFn → List FSOp
  | .noop => []
  | .removeTree p => [FSOp.removeAll p]

/-- `env.workDir`.  `tmpGen` models `ioutil.TempDir("", pre)`: given the
stable name stem it either fails or yields the freshly created unique
directory path (the creation itself happens inside `TempDir`).  Returns the
updated env together with either the error or the pair of path and cleanup
function.  On a repeated call the stored path is returned with a no-op
cleanup and `tmpGen` is not consulted. -/
def workDir (e : GoEnv) (tmpGen : String → Except String String) :
    GoEnv × Except String (String × CleanupFn) :=
  if e.workDirPath != "" then (e, .ok (e.workDirPath, CleanupFn.noop))
  else
    match tmpGen "rules_go_work-" with
    | .error err => (e, .error err)
    | .ok p =>
      ({ e with workDirPath := p },
       .ok (p, if e.shouldPreserveWorkDir then CleanupFn.noop
               else CleanupFn.removeTree p))

/-- Go `strings.Split(s, sep)` for a one-character separator, on character
lists: the list of (possibly empty) segments between occurrences of `c`. -/
def splitChar (c : Char) : List Char → List (List Char)
  | [] => [[]]
  | a :: t =>
    match splitChar c t with
    | [] => [[a]]
    | h :: r => if a == c then [] :: h :: r else (a :: h) :: r

/-- The line list produced by `readParamsFiles` from one parameter file:
`strings.Split(content, "\n")` with a final empty element dropped (Go's
`fileArgs[len(fileArgs)-1] == ""` check; the `len >= 0` conjunct in the
source is vacuously true). -/
def goLines (content : String) : List String :=
  let fa := (splitChar '\n' content.data).map (fun l => (⟨l⟩ : String))
  match fa.getLast? with
  | some s => if s == "" then fa.dropLast else fa
  | none => fa

/-- The index list `paramsIndices` of `readParamsFiles`: positions of
arguments with the `-param=` marker. -/
def paramsIndices (args : List String) : List Nat :=
  (List.range args.length).filter (fun i => strPre "-param=" (args.getD i ""))

/-- The segment-splicing loop of `readParamsFiles`: for each parameter index
copy the untouched run `args[last:pi]`, read the named file (first read error
aborts), splice in its lines, and finally append `args[last:]`.  `rf` models
`ioutil.ReadFile`. -/
def expandSegs (rf : String → Except String String) (args : List String) :
    List Nat → Nat → Except String (List String)
  | [], last => .ok (args.drop last)
  | pi :: rest, last =>
    match rf (strDrop (args.getD pi "") 7) with
    | .error e => .error e
    | .ok content =>
      match expandSegs rf args rest (pi + 1) with
      | .error e => .error e
      | .ok tail =>
        .ok ((args.drop last).take (pi - last) ++ goLines content ++ tail)

/-- `readParamsFiles` from `env.go`: expand every `-param=<file>` token in
place; when no such token exists the argument list is returned unchanged. -/
def readParamsFiles (rf : String → Except String String) (args : List String) :
    Except String (List String) :=
  if (paramsIndices args).isEmpty then .ok args
  else expandSegs rf args (paramsIndices args) 0

/-- Reference rendering of the parameter-file expansion claim, following the
spec's words: every `-param=<file>` token is replaced in place by the
newline-separated lines of that file (trailing empty line ignored) with the
token itself removed, all other tokens keeping their relative order, and a
failing file read aborting with its error.  The refinement theorem proves
the index-based `readParamsFiles` equal to this function on every input. -/
def readParamsSpec (rf : String → Except String String) :
    List String → Except String (List String)
  | [] => .ok []
  | a :: rest =>
    if strPre "-param=" a then
      match rf (strDrop a 7) with
      | .error e => .error e
      | .ok c =>
        match readParamsSpec rf rest with
        | .error e => .error e
        | .ok t => .ok (goLines c ++ t)
    else
      match readParamsSpec rf rest with
      | .error e => .error e
      | .ok t => .ok (a :: t)

/-- Go `filepath.Abs` restricted to clean slash paths: absolute paths are
returned unchanged, relative paths are joined to the working directory
`cwd`. -/
def filepathAbs (cwd p : String) : String :=
  if strPre "/" p then p else joinP cwd p

/-- `abs` from `env.go`: strings with the `__BAZEL_` sentinel are passed
through unchanged, everything else is absolutized (the `filepath.Abs` error
fallback cannot fire in this model). -/
def absGo (cwd p : String) : String :=
  if strPre "__BAZEL_" p then p else filepathAbs cwd p

/-- One iteration of the inner flag loop of `absArgs` on a token that is not
a pending flag value: find the first matching flag; an exact flag match arms
absolutization of the next token, a directly attached value (optionally
after `=`) is absolutized in place. -/
def absOneTok (cwd : String) (flags : List String) (a : String) :
    String × Bool :=
  match flags.find? (fun f => strPre f a) with
  | none => (a, false)
  | some f =>
    let v := strDrop a (strLenC f)
    if v == "" then (a, true)
    else
      match v.data with
      | '=' :: rest => (f ++ "=" ++ absGo cwd (⟨rest⟩ : String), false)
      | _ => (f ++ absGo cwd v, false)

/-- The token loop of `absArgs` with its `absNext` state. -/
def absArgsGo (cwd : String) (flags : List String) :
    Bool → List String → List String
  | _, [] => []
  | true, a :: rest => absGo cwd a :: absArgsGo cwd flags false rest
  | false, a :: rest =>
    let p := absOneTok cwd flags a
    p.1 :: absArgsGo cwd flags p.2 rest

/-- `absArgs(args, flags)` from `env.go` (functional rendering of the
in-place update). -/
def absArgs (cwd : String) (args flags : List String) : List String :=
  absArgsGo cwd flags false args

/-! ## Data model of the replication engine (`env.go`, stdlib builder part) -/

/-- One entry of a zip archive: name, directory flag, content and permission
bits (`zip.File` with its `FileInfo`). -/
structure ZipEntry where
  name : String
  isDir : Bool
  content : String
  fmode : Nat
deriving DecidableEq

/-- The slice of `replicateConfig` the zip replicator consults: the
remove-first flag and the path filters. -/
structure ZipConfig where
  removeFirst : Bool
  paths : List String
deriving DecidableEq

/-- Go map insertion `dirs[d] = true`, rendered as a first-insertion-order
duplicate-collapsing list (the claims only depend on the resulting set). -/
def insertDir (ds : List String) (d : String) : List String :=
  if ds.contains d then ds else ds ++ [d]

/-- The entry-scanning loop of `zipReplicator.Replicate`: each entry whose
name has one of the configured filters as a prefix (first match, then
`break`) is selected; directory entries are recorded in the `dirs` set, file
entries are appended to `files` and their parent directory recorded. -/
def zipCollect (paths : List String) (entries : List ZipEntry) :
    List String × List ZipEntry :=
  entries.foldl
    (fun acc e =>
      match paths.find? (fun pa => strPre pa e.name) with
      | none => acc
      | some _ =>
        if e.isDir then (insertDir acc.1 e.name, acc.2)
        else (insertDir acc.1 (dirname e.name), acc.2 ++ [e]))
    ([], [])

/-- `replicatePrepare(target, config)`: create the parent directory of
`target`, then (when remove-first is set) `os.Remove(target)` with the error
ignored. -/
def prepOps (target : String) (removeFirst : Bool) : List FSOp :=
  FSOp.mkdirAll (dirname target) ::
    (if removeFirst then [FSOp.remove target] else [])

/-- The `extract` closure of `zipReplicator.Replicate` for one file entry:
defensively create the parent of the destination path, then write the entry
content there and apply its permission bits (`createFile`). -/
def extractOps (dst : String) (e : ZipEntry) : List FSOp :=
  [FSOp.mkdirAll (dirname (joinP dst e.name)),
   FSOp.writeFile (joinP dst e.name) e.content e.fmode]

/-- `zipReplicator.Replicate(src, dst, config)` as its filesystem effect
trace: the directory pre-pass (`replicatePrepare` per recorded directory)
followed by the extraction of every selected file entry.  Archive open/read
errors are outside the model; `src` is unused by the source as well. -/
def zipReplicate (dst : String) (cfg : ZipConfig) (entries : List ZipEntry) :
    List FSOp :=
  let df := zipCollect cfg.paths entries
  (df.1.map (fun d => prepOps (joinP dst d) cfg.removeFirst)).flatten ++
    (df.2.map (fun e => extractOps dst e)).flatten

/-- Whether a filesystem effect is a file write. -/
def isWriteOp : FSOp → Bool
  | .writeFile _ _ _ => true
  | _ => false

/-- Checks along an effect trace that every file write is preceded by the
creation of its parent directory: `made` accumulates the directories
explicitly created so far. -/
def preparedB (made : List String) : List FSOp → Bool
  | [] => true
  | FSOp.mkdirAll d :: rest => preparedB (d :: made) rest
  | FSOp.writeFile p _ _ :: rest =>
    made.contains (dirname p) && preparedB made rest
  | _ :: rest => preparedB made rest

/-- Rendering of the claim "all destination directories for selected
entries are created before any file entry is extracted": every recorded
directory's destination path must be covered by some `mkdirAll` (creating
it directly or as an ancestor of a deeper path) occurring strictly before
the first file write of the trace. -/
def dirsCreatedBeforeWritesB (dst : String) (cfg : ZipConfig)
    (entries : List ZipEntry) : Bool :=
  let df := zipCollect cfg.paths entries
  let pre := (zipReplicate dst cfg entries).takeWhile (fun op => !isWriteOp op)
  df.1.all (fun d =>
    pre.any (fun op =>
      match op with
      | FSOp.mkdirAll m => underEqB (joinP dst d) m
      | _ => false))

/-- File payload of the filesystem model: content plus permission bits. -/
structure FileData where
  content : String
  fmode : Nat
deriving DecidableEq

/-- A filesystem, modelled as a finite map from file paths to file data
(directories are implicit: a directory exists when some file lies below
it).  Symbolic links do not occur, so `filepath.EvalSymlinks` is the
identity. -/
abbrev FS := List (String × FileData)

/-- The entries of `fs` lying at or below `src` (the source view a
replication reads). -/
def srcSideB (src : String) (kv : String × FileData) : Bool :=
  underEqB src kv.1

/-- `os.RemoveAll(root)` on the file map: drop every entry at or below
`root`. -/
def removeAllFS (root : String) (fs : FS) : FS :=
  fs.filter (fun kv => !(underEqB root kv.1))

/-- Writing one file: `replicatePrepare` + `createFile` (create truncates a
pre-existing file, so the net effect is replace-or-append). -/
def setFS (fs : FS) (k : String) (v : FileData) : FS :=
  fs.filter (fun kv => !(kv.1 == k)) ++ [(k, v)]

/-- The effect of one filesystem operation on the file map: `mkdirAll` is a
no-op (directories are implicit), `remove` deletes the file at the exact
path (on a real filesystem it also deletes an empty directory, which the
file map does not represent; its error is ignored by the source), `removeAll`
deletes the subtree, and a write replaces or creates the file. -/
def applyOp (fs : FS) : FSOp → FS
  | FSOp.mkdirAll _ => fs
  | FSOp.remove p => fs.filter (fun kv => !(kv.1 == p))
  | FSOp.removeAll p => removeAllFS p fs
  | FSOp.writeFile p c m => setFS fs p { content := c, fmode := m }

/-- Running a whole effect trace against a file map, in order. -/
def applyOps (fs : FS) (ops : List FSOp) : FS := ops.foldl applyOp fs

/-- The net effect of a trace at one path: `some r` when some operation of
the trace determines the final content `r` at that path (later operations
winning), `none` when the trace never touches the path. -/
def traceOverride : List FSOp → String → Option (Option FileData)
  | [], _ => none
  | op :: T, p =>
    match traceOverride T p with
    | some r => some r
    | none =>
      match op with
      | FSOp.writeFile q c m =>
        if p = q then some (some { content := c, fmode := m }) else none
      | FSOp.remove q => if p = q then some none else none
      | FSOp.removeAll q => if underEqB q p then some none else none
      | FSOp.mkdirAll _ => none

/-- Lexicographic byte order on names, the visiting order of
`filepath.Walk`. -/
def lexLe : List Char → List Char → Bool
  | [], _ => true
  | _ :: _, [] => false
  | a :: as, b :: bs => if a == b then lexLe as bs else decide (a.val < b.val)

/-- Stable insertion into a name-sorted entry list. -/
def insertByName (e : String × FileData) :
    List (String × FileData) → List (String × FileData)
  | [] => [e]
  | x :: xs => if lexLe e.1.data x.1.data then e :: x :: xs
               else x :: insertByName e xs

/-- Name-sorted copy of an entry list (the order `filepath.Walk` reports
files in). -/
def sortByName (l : List (String × FileData)) : List (String × FileData) :=
  l.foldr insertByName []

/-- Go `filepath.Rel(root, p)` for `p` strictly below `root`: strip
`root ++ "/"`. -/
def relSuffix (root p : String) : String := strDrop p (strLenC root + 1)

/-- The non-directory entries below `src` in walk order: the file visits of
`filepath.Walk(src, ...)` in `replicateDir` (directory visits return `nil`
immediately). -/
def goFileEntries (fs : FS) (src : String) : FS :=
  sortByName (fs.filter (fun kv => strPre (src ++ "/") kv.1))

/-- `replicateTree(src, dst, config)` for the default copy/copy
configuration: `os.RemoveAll(dst)` first, then (after symlink resolution,
identity here) stat `src`; a directory is walked with each file copied to
its relative position below `dst` (`replicateDir`/`replicateFile`, copy
mode), a single file is copied to `dst` directly; a missing source is a stat
error. -/
def replicateTreeCopy (fs : FS) (src dst : String) : Except String FS :=
  let fs1 := removeAllFS dst fs
  let entries := goFileEntries fs1 src
  if entries.isEmpty then
    match lookupA fs1 src with
    | none => .error ("stat " ++ src ++ ": no such file or directory")
    | some d => .ok (setFS fs1 dst d)
  else
    .ok (entries.foldl (fun acc e => setFS acc (joinP dst (relSuffix src e.1)) e.2) fs1)

/-- The filter loop of `filesystemReplicator.Replicate`: each base path is
replicated independently from `src/base` to `dst/base`; the first failure
aborts. -/
def fsRepBases (src dst : String) : FS → List String → Except String FS
  | fs, [] => .ok fs
  | fs, b :: bs =>
    match replicateTreeCopy fs (joinP src b) (joinP dst b) with
    | .error e => .error e
    | .ok fs2 => fsRepBases src dst fs2 bs

/-- `filesystemReplicator.Replicate(src, dst, config)` in the default copy
configuration: with no path filters the whole tree rooted at `src` is
replicated to `dst`, otherwise each filter base is replicated in order. -/
def fsReplicate (fs : FS) (src dst : String) (paths : List String) :
    Except String FS :=
  if paths.isEmpty then replicateTreeCopy fs src dst
  else fsRepBases src dst fs paths

/-- The source path that a destination path below `dst` mirrors: `dst`
itself maps to `src`, `dst/rel` maps to `src/rel`. -/
def mirrorP (s d p : String) : String :=
  if p == d then s else joinP s (relSuffix d p)

/-- Wellformedness of the source side of a replication: among the entries at
or below `src`, keys are pairwise distinct and never nested below one
another (a real filesystem cannot have a file both at `q` and below `q`). -/
def GoodSrc (src : String) (fs : FS) : Prop :=
  (fs.filter (srcSideB src)).Pairwise
    (fun a b => a.1 ≠ b.1 ∧ strictUnderB a.1 b.1 = false ∧
      strictUnderB b.1 a.1 = false)

/-! ## Concrete sample inputs used by witnesses -/

/-- A sample SDK descriptor. -/
def sampleSdk : Sdk :=
  { goos := "linux", goarch := "amd64", root_file := "go_sdk/ROOT",
    libs := ["go_sdk/pkg/linux_amd64/fmt.a"],
    srcs := ["go_sdk/src/fmt/print.go"],
    headers := ["go_sdk/include/h.h"],
    tools := ["go_sdk/pkg/tool/compile"],
    goBin := "go_sdk/bin/go", package_list := "go_sdk/packages.txt" }

/-- A sample target mode matching the sample SDK's native configuration. -/
def sampleMode : Mode :=
  { goos := "linux", goarch := "amd64", race := false, msan := false,
    pure := false, link := "normal" }

/-- A sample toolchain context over the sample SDK and mode. -/
def sampleCtx : GoCtx :=
  { mode := sampleMode, sdk := sampleSdk, env := [("PATH", "/usr/bin")],
    cgo_tools := { c_compiler_path := "/usr/bin/gcc",
                   c_compile_options := ["-O2", "-g"] },
    extldflags := ["-L/lib"], linkModeArgs := [], zipper := some "zipper",
    crosstool := ["cc_bin"], builder := "builder_bin",
    out_pkg := "out/pkg", out_src := "out/src", out_root := "out/ROOT",
    out_sdkzip := "out/sdk.zip" }

/-- The sample context with a non-reusable mode (pure build requested). -/
def sampleCtxPure : GoCtx :=
  { sampleCtx with mode := { sampleMode with pure := true } }

/-! ## Helper lemmas: provisioning -/

theorem build_stdlib_acts_ne_nil (go : GoCtx) : (build_stdlib go).2 ≠ [] := by
  unfold build_stdlib
  cases go.zipper <;> simp

theorem build_stdlib_has_run (go : GoCtx) :
    ∃ a ∈ (build_stdlib go).2, isRunAction a = true := by
  unfold build_stdlib
  cases go.zipper with
  | none =>
    exact ⟨_, List.mem_cons_of_mem _ (List.mem_cons_self _ _), rfl⟩
  | some z =>
    exact ⟨_, List.mem_cons_of_mem _ (List.mem_cons_self _ _), rfl⟩

theorem should_use_iff (go : GoCtx) :
    should_use_sdk_stdlib go = true ↔
      (go.mode.goos = go.sdk.goos ∧ go.mode.goarch = go.sdk.goarch ∧
       go.mode.race = false ∧ go.mode.msan = false ∧ go.mode.pure = false ∧
       go.mode.link = LINKMODE_NORMAL) := by
  simp [should_use_sdk_stdlib, Bool.and_eq_true, Bool.not_eq_true',
    beq_iff_eq, and_assoc]

/-- C1: provisioning reuses the precompiled standard library — returning the
SDK's own root marker and archive list with zero build actions issued — if
and only if the mode's OS and arch equal the SDK's, race, msan and pure are
all false, and the link mode is normal; in every other case a build action
is issued. -/
theorem c1_stdlib_reuse_iff (go : GoCtx) :
    (stdlib_library_to_source go =
        ({ root_file := go.sdk.root_file, libs := go.sdk.libs }, ([] : List Action)) ↔
      (go.mode.goos = go.sdk.goos ∧ go.mode.goarch = go.sdk.goarch ∧
       go.mode.race = false ∧ go.mode.msan = false ∧ go.mode.pure = false ∧
       go.mode.link = LINKMODE_NORMAL)) ∧
    (¬(go.mode.goos = go.sdk.goos ∧ go.mode.goarch = go.sdk.goarch ∧
       go.mode.race = false ∧ go.mode.msan = false ∧ go.mode.pure = false ∧
       go.mode.link = LINKMODE_NORMAL) →
      ∃ a ∈ (stdlib_library_to_source go).2, isRunAction a = true) := by
  rcases hb : should_use_sdk_stdlib go with _ | _
  · have hcond : ¬(go.mode.goos = go.sdk.goos ∧ go.mode.goarch = go.sdk.goarch ∧
        go.mode.race = false ∧ go.mode.msan = false ∧ go.mode.pure = false ∧
        go.mode.link = LINKMODE_NORMAL) := by
      rw [← should_use_iff]; simp [hb]
    refine ⟨⟨fun h => ?_, fun h => absurd h hcond⟩, fun _ => ?_⟩
    · exact absurd (congrArg Prod.snd h)
        (by simpa [stdlib_library_to_source, hb] using build_stdlib_acts_ne_nil go)
    · simpa [stdlib_library_to_source, hb] using build_stdlib_has_run go
  · have hcond := (should_use_iff go).mp hb
    refine ⟨⟨fun _ => hcond, fun _ => ?_⟩, fun h => absurd hcond h⟩
    simp [stdlib_library_to_source, hb, sdk_stdlib]

/-- Witness for C1 at concrete inputs: the sample context's mode matches its
SDK, so provisioning reuses; the pure-mode context issues a build action. -/
theorem c1_witness :
    (stdlib_library_to_source sampleCtx =
        ({ root_file := sampleCtx.sdk.root_file, libs := sampleCtx.sdk.libs },
          ([] : List Action))) ∧
    (∃ a ∈ (stdlib_library_to_source sampleCtxPure).2, isRunAction a = true) := by
  constructor
  · exact (c1_stdlib_reuse_iff sampleCtx).1.mpr (by decide)
  · exact (c1_stdlib_reuse_iff sampleCtxPure).2 (by decide)

/-- C9: the post-parse flag check fails exactly when the SDK path flag is
empty, and its outcome is independent of every other flag. -/
theorem c9_checkFlags (e : GoEnv) :
    ((checkFlags e).isSome = true ↔ e.sdk = "") ∧
    (∀ z i v w b,
      checkFlags { sdk := e.sdk, sdkzip := z, installSuffix := i, verbose := v,
                   workDirPath := w, shouldPreserveWorkDir := b } =
        checkFlags e) := by
  constructor
  · by_cases h : e.sdk = "" <;> simp [checkFlags, h]
  · intro z i v w b
    by_cases h : e.sdk = "" <;> simp [checkFlags, h]

/-! ## Helper lemmas: dict updates -/

theorem lookupA_append {α : Type} (l1 l2 : List (String × α)) (k : String) :
    lookupA (l1 ++ l2) k =
      match lookupA l1 k with
      | some v => some v
      | none => lookupA l2 k := by
  induction l1 with
  | nil => simp [lookupA]
  | cons kv r ih =>
    by_cases h : kv.1 == k <;> simp [lookupA, h, ih]

theorem lookupA_eq_none_of_any_false {α : Type} (d : List (String × α))
    (k : String) (h : d.any (fun kv => kv.1 == k) = false) :
    lookupA d k = none := by
  induction d with
  | nil => rfl
  | cons kv r ih =>
    simp only [List.any_cons, Bool.or_eq_false_iff] at h
    simp [lookupA, h.1, ih h.2]

theorem lookupA_map_update {α : Type} (r : List (String × α)) (k : String)
    (v : α) (ha : r.any (fun kv => kv.1 == k) = true) :
    lookupA (r.map (fun kv => if kv.1 == k then (k, v) else kv)) k = some v := by
  induction r with
  | nil => simp at ha
  | cons kv r ih =>
    rcases hk : (kv.1 == k) with _ | _
    · simp only [List.any_cons, hk, Bool.false_or] at ha
      simp only [List.map_cons, hk, Bool.false_eq_true, if_false, lookupA]
      exact ih ha
    · simp [lookupA, hk]

theorem lookupA_map_update_other {α : Type} (r : List (String × α))
    (k k2 : String) (v : α) (h : ¬(k2 = k)) :
    lookupA (r.map (fun kv => if kv.1 == k then (k, v) else kv)) k2 =
      lookupA r k2 := by
  induction r with
  | nil => rfl
  | cons kv r ih =>
    rcases hk : (kv.1 == k) with _ | _
    · simp only [List.map_cons, hk, Bool.false_eq_true, if_false, lookupA]
      by_cases h2 : kv.1 = k2
      · simp [h2]
      · rw [if_neg (by simpa using h2), if_neg (by simpa using h2)]
        exact ih
    · have hk1 : kv.1 = k := by simpa using hk
      have hne : ¬(k = k2) := fun hh => h hh.symm
      simp only [List.map_cons, hk, if_true, lookupA]
      rw [if_neg (by simpa using hne), if_neg (by rw [hk1]; simpa using hne)]
      simpa using ih

theorem lookupA_updateOne_same {α : Type} (d : List (String × α))
    (k : String) (v : α) : lookupA (updateOne d k v) k = some v := by
  unfold updateOne
  rcases ha : d.any (fun kv => kv.1 == k) with _ | _
  · simp only [ha, Bool.false_eq_true, if_false]
    rw [lookupA_append, lookupA_eq_none_of_any_false d k ha]
    simp [lookupA]
  · simp only [ha, if_true]
    exact lookupA_map_update d k v ha

theorem lookupA_updateOne_other {α : Type} (d : List (String × α))
    (k k2 : String) (v : α) (h : ¬(k2 = k)) :
    lookupA (updateOne d k v) k2 = lookupA d k2 := by
  unfold updateOne
  split
  · exact lookupA_map_update_other d k k2 v h
  · rw [lookupA_append]
    have hne : ¬((k : String) == k2) = true := by
      simpa using fun hh : k = k2 => h hh.symm
    rcases hl : lookupA d k2 with _ | _ <;> simp [lookupA, hne, hl]

theorem stdlibEnv_pure (go : GoCtx) (h : go.mode.pure = true) :
    lookupA (stdlibEnv go) "CGO_ENABLED" = some "0" := by
  simp only [stdlibEnv, h, if_true, updateEnv]
  exact lookupA_updateOne_same _ _ _

theorem stdlibEnv_cgo (go : GoCtx) (h : go.mode.pure = false) :
    lookupA (stdlibEnv go) "CGO_ENABLED" = some "1" ∧
    lookupA (stdlibEnv go) "CC" = some go.cgo_tools.c_compiler_path ∧
    lookupA (stdlibEnv go) "CGO_CFLAGS" =
      some (joinSpace go.cgo_tools.c_compile_options) ∧
    lookupA (stdlibEnv go) "CGO_LDFLAGS" = some (joinSpace go.extldflags) := by
  simp only [stdlibEnv, h, if_false, updateEnv, Bool.false_eq_true]
  refine ⟨?_, ?_, ?_, ?_⟩
  · rw [lookupA_updateOne_other _ _ _ _ (by decide),
      lookupA_updateOne_other _ _ _ _ (by decide),
      lookupA_updateOne_other _ _ _ _ (by decide)]
    exact lookupA_updateOne_same _ _ _
  · rw [lookupA_updateOne_other _ _ _ _ (by decide),
      lookupA_updateOne_other _ _ _ _ (by decide)]
    exact lookupA_updateOne_same _ _ _
  · rw [lookupA_updateOne_other _ _ _ _ (by decide)]
    exact lookupA_updateOne_same _ _ _
  · exact lookupA_updateOne_same _ _ _

/-- C5: the rebuild action's environment carries `CGO_ENABLED=0` when pure
mode is set, and otherwise `CGO_ENABLED=1` together with `CC`, `CGO_CFLAGS`
and `CGO_LDFLAGS` taken from the active cc toolchain; the final `GoStdlib`
build action indeed carries exactly this environment. -/
theorem c5_stdlib_build_env (go : GoCtx) :
    (∃ pre inputs argsx,
      (build_stdlib go).2 =
        pre ++ [Action.run "GoStdlib" inputs [go.out_pkg, go.out_src]
          go.builder argsx (stdlibEnv go)]) ∧
    (go.mode.pure = true →
      lookupA (stdlibEnv go) "CGO_ENABLED" = some "0") ∧
    (go.mode.pure = false →
      lookupA (stdlibEnv go) "CGO_ENABLED" = some "1" ∧
      lookupA (stdlibEnv go) "CC" = some go.cgo_tools.c_compiler_path ∧
      lookupA (stdlibEnv go) "CGO_CFLAGS" =
        some (joinSpace go.cgo_tools.c_compile_options) ∧
      lookupA (stdlibEnv go) "CGO_LDFLAGS" = some (joinSpace go.extldflags)) := by
  refine ⟨?_, stdlibEnv_pure go, stdlibEnv_cgo go⟩
  unfold build_stdlib
  cases go.zipper with
  | none => exact ⟨[_], _, _, rfl⟩
  | some z => exact ⟨[_, _], _, _, rfl⟩

/-- Witness for C5 at concrete inputs: the non-pure sample context receives
the full CGO environment; the pure variant receives `CGO_ENABLED=0`. -/
theorem c5_witness :
    lookupA (stdlibEnv sampleCtx) "CC" = some "/usr/bin/gcc" ∧
    lookupA (stdlibEnv sampleCtx) "CGO_CFLAGS" = some "-O2 -g" ∧
    lookupA (stdlibEnv sampleCtxPure) "CGO_ENABLED" = some "0" := by
  refine ⟨?_, ?_, ?_⟩
  · exact ((c5_stdlib_build_env sampleCtx).2.2 rfl).2.1
  · exact ((c5_stdlib_build_env sampleCtx).2.2 rfl).2.2.1
  · exact (c5_stdlib_build_env sampleCtxPure).2.1 rfl

/-- C4: with the packaging tool available, the SDK inputs (sources, headers,
tools, Go binary, root file) are packaged by a dedicated `GoStdlibZip`
action whose per-entry arguments name each input relative to the SDK root
(the input path with the root file's directory length plus one stripped);
the archive then replaces the SDK files as the sole SDK input of the main
`GoStdlib` action, whose arguments gain `-sdkzip <archive>`. -/
theorem c4_build_stdlib_zipper (go : GoCtx) (z : String)
    (hz : go.zipper = some z) :
    (build_stdlib go).2 =
      [Action.write go.out_root "",
       Action.run "GoStdlibZip"
         (go.sdk.srcs ++ go.sdk.headers ++ go.sdk.tools ++
           [go.sdk.goBin, go.sdk.root_file])
         [go.out_sdkzip] z
         ("cC" :: go.out_sdkzip ::
           (go.sdk.srcs ++ go.sdk.headers ++ go.sdk.tools ++
             [go.sdk.goBin, go.sdk.root_file]).map
             (fun f =>
               strDrop f (strLenC (dirname go.sdk.root_file) + 1) ++ "=" ++ f))
         [],
       Action.run "GoStdlib"
         (go.out_sdkzip :: (go.crosstool ++ [go.sdk.package_list]))
         [go.out_pkg, go.out_src] go.builder
         (stdlibArgs go ++ ["-sdkzip", go.out_sdkzip]) (stdlibEnv go)] := by
  unfold build_stdlib
  rw [hz]
  rfl

/-- Witness for C4 at the sample context, whose zipper is available: the
zip entry for the SDK source file is named relative to the SDK root. -/
theorem c4_witness :
    (build_stdlib sampleCtx).2.length = 3 ∧
    ("src/fmt/print.go=go_sdk/src/fmt/print.go" ∈
      (("cC" :: sampleCtx.out_sdkzip ::
        (sampleCtx.sdk.srcs ++ sampleCtx.sdk.headers ++ sampleCtx.sdk.tools ++
          [sampleCtx.sdk.goBin, sampleCtx.sdk.root_file]).map
          (fun f =>
            strDrop f (strLenC (dirname sampleCtx.sdk.root_file) + 1) ++ "=" ++ f)))) := by
  have h := c4_build_stdlib_zipper sampleCtx "zipper" rfl
  constructor
  · rw [h]; rfl
  · decide

/-! ## Helper lemmas: strings and arguments -/

theorem strAppend_assoc (a b c : String) : a ++ b ++ c = a ++ (b ++ c) := by
  apply String.ext
  simp [String.data_append, List.append_assoc]

theorem absGo_rel (cwd b : String) (hb : strPre "__BAZEL_" b = false)
    (hs : strPre "/" b = false) : absGo cwd b = cwd ++ "/" ++ b := by
  simp [absGo, filepathAbs, joinP, hb, hs]

theorem absArgs_no_flag (cwd : String) (flags args : List String)
    (h : ∀ a ∈ args, ∀ f ∈ flags, strPre f a = false) :
    absArgs cwd args flags = args := by
  unfold absArgs
  induction args with
  | nil => rfl
  | cons a rest ih =>
    have hfind : flags.find? (fun f => strPre f a) = none :=
      List.find?_eq_none.mpr (fun f hf => by
        simp [h a (List.mem_cons_self a rest) f hf])
    simp only [absArgsGo, absOneTok, hfind]
    exact congrArg (a :: ·)
      (ih (fun x hx f hf => h x (List.mem_cons_of_mem a hx) f hf))

theorem absArgs_cons (cwd : String) (flags : List String) (a : String)
    (rest : List String) :
    absArgs cwd (a :: rest) flags =
      (absOneTok cwd flags a).1 ::
        absArgsGo cwd flags (absOneTok cwd flags a).2 rest := rfl

theorem absOneTok_none (cwd : String) (flags : List String) (a : String)
    (hf : flags.find? (fun f => strPre f a) = none) :
    absOneTok cwd flags a = (a, false) := by
  unfold absOneTok
  rw [hf]

theorem absOneTok_exact (cwd : String) (flags : List String) (a f : String)
    (hf : flags.find? (fun f => strPre f a) = some f)
    (hv : strDrop a (strLenC f) = "") :
    absOneTok cwd flags a = (a, true) := by
  simp [absOneTok, hf, hv]

theorem absOneTok_attached (cwd : String) (flags : List String)
    (a f : String) (c : Char) (w : List Char)
    (hf : flags.find? (fun f => strPre f a) = some f)
    (hd : (strDrop a (strLenC f)).data = c :: w) (hne : ¬(c = '=')) :
    absOneTok cwd flags a =
      (f ++ absGo cwd (strDrop a (strLenC f)), false) := by
  have hvne : ¬(strDrop a (strLenC f) == "") = true := by
    simp only [beq_iff_eq]
    intro hh
    rw [hh] at hd
    cases hd
  simp only [absOneTok, hf]
  rw [if_neg hvne, hd]
  simp [hne]

theorem absOneTok_eq_joined (cwd : String) (flags : List String)
    (a f : String) (w : List Char)
    (hf : flags.find? (fun f => strPre f a) = some f)
    (hd : (strDrop a (strLenC f)).data = '=' :: w) :
    absOneTok cwd flags a =
      (f ++ "=" ++ absGo cwd (⟨w⟩ : String), false) := by
  have hvne : ¬(strDrop a (strLenC f) == "") = true := by
    simp only [beq_iff_eq]
    intro hh
    rw [hh] at hd
    cases hd
  simp only [absOneTok, hf]
  rw [if_neg hvne, hd]
  simp

theorem filter_map_succ (l : List Nat) (p : Nat → Bool) :
    (l.map Nat.succ).filter p = (l.filter (fun j => p (j + 1))).map Nat.succ := by
  induction l with
  | nil => rfl
  | cons x t ih =>
    simp only [List.map_cons, List.filter_cons]
    rcases hp : p (x + 1) with _ | _
    · simpa [Nat.succ_eq_add_one, hp] using ih
    · simpa [Nat.succ_eq_add_one, hp] using ih

theorem paramsIndices_cons (a : String) (args : List String) :
    paramsIndices (a :: args) =
      (if strPre "-param=" a = true then [0] else []) ++
        (paramsIndices args).map (· + 1) := by
  unfold paramsIndices
  rw [List.length_cons, List.range_succ_eq_map, List.filter_cons,
    filter_map_succ]
  simp only [List.getD_cons_zero, List.getD_cons_succ, Nat.succ_eq_add_one]
  rcases hp : strPre "-param=" a with _ | _
  · simp [hp]
  · simp [hp]

theorem expandSegs_shift (rf : String → Except String String) (a : String)
    (args : List String) :
    ∀ (pis : List Nat) (last : Nat),
      expandSegs rf (a :: args) (pis.map (· + 1)) (last + 1) =
        expandSegs rf args pis last := by
  intro pis
  induction pis with
  | nil =>
    intro last
    show expandSegs rf (a :: args) [] (last + 1) = expandSegs rf args [] last
    unfold expandSegs
    rw [List.drop_succ_cons]
  | cons pi rest ih =>
    intro last
    show expandSegs rf (a :: args) ((pi + 1) :: rest.map (· + 1)) (last + 1) = _
    unfold expandSegs
    rw [List.getD_cons_succ]
    rcases hr : rf (strDrop (args.getD pi "") 7) with e | c
    · rfl
    · rw [ih (pi + 1)]
      rcases ht : expandSegs rf args rest (pi + 1) with e | t
      · rfl
      · rw [List.drop_succ_cons, Nat.add_sub_add_right]

theorem expandSegs_head_param (rf : String → Except String String)
    (a : String) (args : List String) (pis : List Nat) :
    expandSegs rf (a :: args) (0 :: pis.map (· + 1)) 0 =
      match rf (strDrop a 7) with
      | .error e => .error e
      | .ok c =>
        match expandSegs rf args pis 0 with
        | .error e => .error e
        | .ok t => .ok (goLines c ++ t) := by
  conv_lhs => unfold expandSegs
  rw [List.getD_cons_zero]
  rcases hr : rf (strDrop a 7) with e | c
  · rfl
  · rw [expandSegs_shift rf a args pis 0]
    rcases ht : expandSegs rf args pis 0 with e | t
    · rfl
    · simp

theorem expandSegs_cons_nonparam (rf : String → Except String String)
    (a : String) (args : List String) (pis : List Nat) :
    expandSegs rf (a :: args) (pis.map (· + 1)) 0 =
      match expandSegs rf args pis 0 with
      | .error e => .error e
      | .ok t => .ok (a :: t) := by
  cases pis with
  | nil =>
    unfold expandSegs
    simp
  | cons pi rest =>
    show expandSegs rf (a :: args) ((pi + 1) :: rest.map (· + 1)) 0 = _
    conv_lhs => unfold expandSegs
    conv_rhs => unfold expandSegs
    rw [List.getD_cons_succ]
    rcases hr : rf (strDrop (args.getD pi "") 7) with e | c
    · rfl
    · rw [expandSegs_shift rf a args rest (pi + 1)]
      rcases ht : expandSegs rf args rest (pi + 1) with e | t
      · rfl
      · simp [List.take_succ_cons]

theorem expandSegs_paramsIndices (rf : String → Except String String)
    (args : List String) :
    expandSegs rf args (paramsIndices args) 0 = readParamsFiles rf args := by
  unfold readParamsFiles
  rcases hpi : paramsIndices args with _ | ⟨pi, rest⟩
  · simp [expandSegs]
  · simp

theorem readParamsFiles_eq_spec (rf : String → Except String String) :
    ∀ args, readParamsFiles rf args = readParamsSpec rf args := by
  intro args
  induction args with
  | nil => rfl
  | cons a args ih =>
    rw [← expandSegs_paramsIndices, paramsIndices_cons]
    have hspec : readParamsSpec rf (a :: args) =
        if strPre "-param=" a then
          match rf (strDrop a 7) with
          | .error e => Except.error e
          | .ok c =>
            match readParamsSpec rf args with
            | .error e => Except.error e
            | .ok t => Except.ok (goLines c ++ t)
        else
          match readParamsSpec rf args with
          | .error e => Except.error e
          | .ok t => Except.ok (a :: t) := rfl
    rcases hpar : strPre "-param=" a with _ | _
    · simp only [hpar, Bool.false_eq_true, if_false, List.nil_append]
      rw [expandSegs_cons_nonparam, expandSegs_paramsIndices, ih, hspec]
      simp [hpar]
    · simp only [hpar, if_true, List.singleton_append]
      rw [expandSegs_head_param, expandSegs_paramsIndices, ih, hspec]
      simp [hpar]

/-- C7: for every file reader and every argument list, parameter-file
expansion equals the direct in-place expansion `readParamsSpec` — every
`-param=<file>` token is replaced by the file's newline-separated lines with
the trailing empty line dropped and the token itself removed, all other
tokens keep their relative order, and the first failing read aborts with its
error; a list without such tokens is returned unchanged; and the spec's
example expands as claimed. -/
theorem c7_readParamsFiles :
    (∀ rf args, readParamsFiles rf args = readParamsSpec rf args) ∧
    (∀ rf args, (∀ a ∈ args, strPre "-param=" a = false) →
      readParamsFiles rf args = .ok args) ∧
    readParamsFiles
        (fun n => if n == "file.txt" then
            Except.ok "-flag1\nvalueA\n-flag2\nvalueB\n"
          else Except.error "open") ["x", "-param=file.txt", "y"] =
      Except.ok ["x", "-flag1", "valueA", "-flag2", "valueB", "y"] ∧
    readParamsFiles
        (fun n => if n == "f" then Except.ok "-flag1\nvalueA\n-flag2\nvalueB\n"
          else if n == "g" then Except.ok "z\n"
          else Except.error "open")
        ["a", "-param=f", "b", "-param=g", "c"] =
      Except.ok ["a", "-flag1", "valueA", "-flag2", "valueB", "b", "z", "c"] := by
  refine ⟨fun rf args => readParamsFiles_eq_spec rf args, ?_, rfl, rfl⟩
  intro rf args h
  have hidx : paramsIndices args = [] := by
    unfold paramsIndices
    refine List.filter_eq_nil_iff.mpr (fun i hi => ?_)
    have hlen : i < args.length := List.mem_range.mp hi
    rw [List.getD_eq_getElem args "" hlen]
    have hfalse := h args[i] (List.getElem_mem hlen)
    simp [hfalse]
  simp [readParamsFiles, hidx]

/-- Witness for C7: the no-token case at a concrete list. -/
theorem c7_witness :
    readParamsFiles (fun _ => Except.error "open") ["a", "b"] =
      Except.ok ["a", "b"] :=
  c7_readParamsFiles.2.1 (fun _ => Except.error "open") ["a", "b"] (by decide)

/-- Counterexample for C8: after a first call has created the work
directory, a context not configured to preserve it still receives a no-op
cleanup from the next call — the cleanup removes nothing, contradicting
"every call returns a cleanup [that] removes the entire directory tree
unless the context was configured to preserve the work directory". -/
theorem c8_counterexample :
    (workDir
        ((workDir { envFlagsDefaults with sdk := "s" }
          (fun _ => Except.ok "/tmp/rules_go_work-abc")).1)
        (fun _ => Except.ok "/tmp/rules_go_work-xyz")).2 =
      Except.ok ("/tmp/rules_go_work-abc", CleanupFn.noop) ∧
    ({ envFlagsDefaults with sdk := "s" } : GoEnv).shouldPreserveWorkDir = false ∧
    runCleanup CleanupFn.noop = [] :=
  ⟨rfl, rfl, rfl⟩

/-- C8 (amended): the first successful call creates the work directory
through the temp-dir generator invoked with the stable stem
`rules_go_work-` and records its path; that first call's cleanup removes the
whole tree unless preservation was configured, in which case it is a no-op;
every subsequent call returns the same recorded path without consulting the
generator again — but with an unconditionally no-op cleanup. -/
theorem c8_workDir (e : GoEnv) (g g2 : String → Except String String)
    (p : String) (h0 : e.workDirPath = "")
    (hg : g "rules_go_work-" = .ok p) (hp : ¬(p = "")) :
    (workDir e g).2 =
      .ok (p, if e.shouldPreserveWorkDir then CleanupFn.noop
              else CleanupFn.removeTree p) ∧
    (workDir e g).1 = { e with workDirPath := p } ∧
    workDir (workDir e g).1 g2 = ((workDir e g).1, .ok (p, CleanupFn.noop)) ∧
    runCleanup (CleanupFn.removeTree p) = [FSOp.removeAll p] ∧
    runCleanup CleanupFn.noop = [] := by
  have hne : (e.workDirPath != "") = false := by simp [h0]
  have hfst : workDir e g =
      ({ e with workDirPath := p },
       .ok (p, if e.shouldPreserveWorkDir then CleanupFn.noop
               else CleanupFn.removeTree p)) := by
    simp [workDir, hne, hg]
  refine ⟨by rw [hfst], by rw [hfst], ?_, rfl, rfl⟩
  rw [hfst]
  have hne2 : ((({ e with workDirPath := p } : GoEnv)).workDirPath != "") = true := by
    simpa using hp
  simp [workDir, hne2]

/-- Witness for C8 (amended) at concrete inputs. -/
theorem c8_witness :
    (workDir { envFlagsDefaults with sdk := "s" }
        (fun _ => Except.ok "/tmp/rules_go_work-abc")).2 =
      Except.ok ("/tmp/rules_go_work-abc",
        CleanupFn.removeTree "/tmp/rules_go_work-abc") := by
  have h := c8_workDir { envFlagsDefaults with sdk := "s" }
    (fun _ => Except.ok "/tmp/rules_go_work-abc")
    (fun _ => Except.ok "/tmp/rules_go_work-xyz")
    "/tmp/rules_go_work-abc" rfl rfl (by decide)
  simpa using h.1

/-! ## Helper lemmas: zip replication -/

theorem insertDir_mem (ds : List String) (x d : String) :
    d ∈ insertDir ds x ↔ d ∈ ds ∨ d = x := by
  unfold insertDir
  rcases hc : ds.contains x with _ | _
  · simp
  · have hx : x ∈ ds := by simpa using hc
    simp only [if_true]
    constructor
    · exact Or.inl
    · rintro (h | rfl)
      · exact h
      · exact hx

theorem zipCollect_step_acc (paths : List String) (entries : List ZipEntry) :
    ∀ acc : List String × List ZipEntry,
      (entries.foldl
        (fun acc e =>
          match paths.find? (fun pa => strPre pa e.name) with
          | none => acc
          | some _ =>
            if e.isDir then (insertDir acc.1 e.name, acc.2)
            else (insertDir acc.1 (dirname e.name), acc.2 ++ [e]))
        acc).2 =
      acc.2 ++ entries.filter
        (fun e => !e.isDir && paths.any (fun pa => strPre pa e.name)) := by
  induction entries with
  | nil => intro acc; simp
  | cons e rest ih =>
    intro acc
    rcases hfind : paths.find? (fun pa => strPre pa e.name) with _ | pa
    · have hany : paths.any (fun pa => strPre pa e.name) = false := by
        rcases ha : paths.any (fun pa => strPre pa e.name) with _ | _
        · rfl
        · rcases List.any_eq_true.mp ha with ⟨pa, hmem, hpa⟩
          have := List.find?_eq_none.mp hfind pa hmem
          simp [hpa] at this
      simp only [List.foldl_cons, hfind, List.filter_cons, hany,
        Bool.and_false, if_false]
      exact ih acc
    · have hpa : strPre pa e.name = true := by
        have h2 := List.find?_some hfind
        simpa using h2
      have hany : paths.any (fun pa => strPre pa e.name) = true :=
        List.any_eq_true.mpr ⟨pa, List.mem_of_find?_eq_some hfind, hpa⟩
      rcases hdir : e.isDir with _ | _
      · simp only [List.foldl_cons, hfind, hdir, Bool.false_eq_true, if_false,
          List.filter_cons, hany, Bool.not_false, Bool.true_and]
        rw [ih]
        simp
      · simp only [List.foldl_cons, hfind, hdir, if_true, List.filter_cons,
          hany, Bool.not_true, Bool.false_and, if_false]
        exact ih _

theorem zipCollect_files (paths : List String) (entries : List ZipEntry) :
    (zipCollect paths entries).2 =
      entries.filter
        (fun e => !e.isDir && paths.any (fun pa => strPre pa e.name)) := by
  have h := zipCollect_step_acc paths entries ([], [])
  simpa [zipCollect] using h

theorem zipCollect_dirs_acc (paths : List String) (entries : List ZipEntry) :
    ∀ (acc : List String × List ZipEntry) (d : String),
      d ∈ (entries.foldl
        (fun acc e =>
          match paths.find? (fun pa => strPre pa e.name) with
          | none => acc
          | some _ =>
            if e.isDir then (insertDir acc.1 e.name, acc.2)
            else (insertDir acc.1 (dirname e.name), acc.2 ++ [e]))
        acc).1 ↔
      d ∈ acc.1 ∨ ∃ e ∈ entries, paths.any (fun pa => strPre pa e.name) = true ∧
        ((e.isDir = true ∧ d = e.name) ∨ (e.isDir = false ∧ d = dirname e.name)) := by
  induction entries with
  | nil => intro acc d; simp
  | cons e rest ih =>
    intro acc d
    rcases hfind : paths.find? (fun pa => strPre pa e.name) with _ | pa
    · have hany : paths.any (fun pa => strPre pa e.name) = false := by
        rcases ha : paths.any (fun pa => strPre pa e.name) with _ | _
        · rfl
        · rcases List.any_eq_true.mp ha with ⟨pa, hmem, hpa⟩
          have := List.find?_eq_none.mp hfind pa hmem
          simp [hpa] at this
      simp only [List.foldl_cons, hfind]
      rw [ih acc d]
      constructor
      · rintro (h | h)
        · exact Or.inl h
        · exact Or.inr (by
            rcases h with ⟨x, hx, hh⟩
            exact ⟨x, List.mem_cons_of_mem e hx, hh⟩)
      · rintro (h | ⟨x, hx, hh⟩)
        · exact Or.inl h
        · rcases List.mem_cons.mp hx with rfl | hx2
          · rw [hh.1] at hany; simp at hany
          · exact Or.inr ⟨x, hx2, hh⟩
    · have hpa : strPre pa e.name = true := by
        have h2 := List.find?_some hfind
        simpa using h2
      have hany : paths.any (fun pa => strPre pa e.name) = true :=
        List.any_eq_true.mpr ⟨pa, List.mem_of_find?_eq_some hfind, hpa⟩
      rcases hdir : e.isDir with _ | _
      · simp only [List.foldl_cons, hfind, hdir, Bool.false_eq_true, if_false]
        rw [ih _ d, insertDir_mem]
        constructor
        · rintro ((h | rfl) | h)
          · exact Or.inl h
          · exact Or.inr ⟨e, List.mem_cons_self e rest, hany,
              Or.inr ⟨hdir, rfl⟩⟩
          · rcases h with ⟨x, hx, hh⟩
            exact Or.inr ⟨x, List.mem_cons_of_mem e hx, hh⟩
        · rintro (h | ⟨x, hx, hh⟩)
          · exact Or.inl (Or.inl h)
          · rcases List.mem_cons.mp hx with rfl | hx2
            · rcases hh.2 with ⟨hd, _⟩ | ⟨_, hd⟩
              · rw [hdir] at hd; cases hd
              · exact Or.inl (Or.inr hd)
            · exact Or.inr ⟨x, hx2, hh⟩
      · simp only [List.foldl_cons, hfind, hdir, if_true]
        rw [ih _ d, insertDir_mem]
        constructor
        · rintro ((h | rfl) | h)
          · exact Or.inl h
          · exact Or.inr ⟨e, List.mem_cons_self e rest, hany,
              Or.inl ⟨hdir, rfl⟩⟩
          · rcases h with ⟨x, hx, hh⟩
            exact Or.inr ⟨x, List.mem_cons_of_mem e hx, hh⟩
        · rintro (h | ⟨x, hx, hh⟩)
          · exact Or.inl (Or.inl h)
          · rcases List.mem_cons.mp hx with rfl | hx2
            · rcases hh.2 with ⟨_, hd⟩ | ⟨hd, _⟩
              · exact Or.inl (Or.inr hd)
              · rw [hdir] at hd; cases hd
            · exact Or.inr ⟨x, hx2, hh⟩

theorem zipCollect_dirs_mem (paths : List String) (entries : List ZipEntry)
    (d : String) :
    d ∈ (zipCollect paths entries).1 ↔
      ∃ e ∈ entries, paths.any (fun pa => strPre pa e.name) = true ∧
        ((e.isDir = true ∧ d = e.name) ∨
         (e.isDir = false ∧ d = dirname e.name)) := by
  have h := zipCollect_dirs_acc paths entries ([], []) d
  simpa [zipCollect] using h

theorem prepass_writefree (dst : String) (rf : Bool) (dirs : List String) :
    ∀ op ∈ (dirs.map (fun d => prepOps (joinP dst d) rf)).flatten,
      isWriteOp op = false := by
  intro op hop
  rcases List.mem_flatten.mp hop with ⟨blk, hblk, hopin⟩
  rcases List.mem_map.mp hblk with ⟨d, _, rfl⟩
  rcases List.mem_cons.mp hopin with rfl | h2
  · rfl
  · rcases rf with _ | _
    · simp [prepOps] at h2
    · simp only [prepOps, if_true, List.mem_singleton] at h2
      rw [h2]; rfl

theorem extract_prepared (dst : String) (files : List ZipEntry) :
    ∀ made, preparedB made ((files.map (extractOps dst)).flatten) = true := by
  induction files with
  | nil => intro made; rfl
  | cons e rest ih =>
    intro made
    simp only [List.map_cons, List.flatten_cons, extractOps, List.cons_append,
      List.nil_append, preparedB]
    rw [show ((dirname (joinP dst e.name) :: made).contains
        (dirname (joinP dst e.name))) = true by simp]
    simp only [Bool.true_and]
    exact ih _

theorem preparedB_append (A B : List FSOp) (made : List String)
    (hA : ∀ op ∈ A, isWriteOp op = false)
    (hB : ∀ m, preparedB m B = true) :
    preparedB made (A ++ B) = true := by
  induction A generalizing made with
  | nil => exact hB made
  | cons op rest ih =>
    have hrest : ∀ o ∈ rest, isWriteOp o = false :=
      fun o ho => hA o (List.mem_cons_of_mem op ho)
    cases op with
    | mkdirAll d => exact ih (d :: made) hrest
    | remove p => exact ih made hrest
    | removeAll p => exact ih made hrest
    | writeFile p c m =>
      have := hA _ (List.mem_cons_self _ rest)
      simp [isWriteOp] at this

theorem takeWhile_all_append (p : FSOp → Bool) (A B : List FSOp)
    (h : ∀ a ∈ A, p a = true) :
    (A ++ B).takeWhile p = A ++ B.takeWhile p := by
  induction A with
  | nil => rfl
  | cons a t ih =>
    simp [List.takeWhile_cons, h a (List.mem_cons_self a t),
      ih (fun x hx => h x (List.mem_cons_of_mem a hx))]

/-- Counterexample for C2 at a concrete archive: with filters `a/` and
`c/` over the two file entries `a/b/f1` and `c/e/f2` (no explicit directory
entries), the recorded directory set is `{a/b, c/e}`, yet the destination
directory `d/c/e` is not created (not even as an ancestor) before the first
file write — the pre-pass only creates the parents `d/a` and `d/c`, and
`d/c/e` appears only during the second file's own extraction step. -/
theorem c2_counterexample :
    (zipCollect ["a/", "c/"]
        [{ name := "a/b/f1", isDir := false, content := "x", fmode := 420 },
         { name := "c/e/f2", isDir := false, content := "y", fmode := 420 }]).1 =
      ["a/b", "c/e"] ∧
    dirsCreatedBeforeWritesB "d" { removeFirst := true, paths := ["a/", "c/"] }
        [{ name := "a/b/f1", isDir := false, content := "x", fmode := 420 },
         { name := "c/e/f2", isDir := false, content := "y", fmode := 420 }] =
      false := by
  constructor
  · rfl
  · rfl

/-- C2 (amended): archive-mode replication selects exactly the entries whose
name has a configured filter as a prefix; the recorded directory set is
exactly the selected directory entries plus the parent directories of
selected file entries (duplicates collapsed); before any file is extracted
the pre-pass creates the parent of each recorded directory (and, with
remove-first set, removes the recorded path); each selected file's parent
directory is created defensively before that file's own write, so every
write in the trace is preceded by creation of its parent; and the writes of
the trace are exactly the selected file entries. -/
theorem c2_zip_replicate (dst : String) (cfg : ZipConfig)
    (entries : List ZipEntry) :
    (zipCollect cfg.paths entries).2 =
      entries.filter
        (fun e => !e.isDir && cfg.paths.any (fun pa => strPre pa e.name)) ∧
    (∀ d, d ∈ (zipCollect cfg.paths entries).1 ↔
      ∃ e ∈ entries, cfg.paths.any (fun pa => strPre pa e.name) = true ∧
        ((e.isDir = true ∧ d = e.name) ∨
         (e.isDir = false ∧ d = dirname e.name))) ∧
    (∀ d ∈ (zipCollect cfg.paths entries).1,
      FSOp.mkdirAll (dirname (joinP dst d)) ∈
        (zipReplicate dst cfg entries).takeWhile (fun op => !isWriteOp op)) ∧
    preparedB [] (zipReplicate dst cfg entries) = true ∧
    (∀ p c m, FSOp.writeFile p c m ∈ zipReplicate dst cfg entries ↔
      ∃ e ∈ entries, cfg.paths.any (fun pa => strPre pa e.name) = true ∧
        e.isDir = false ∧ p = joinP dst e.name ∧ c = e.content ∧
        m = e.fmode) := by
  refine ⟨zipCollect_files cfg.paths entries,
    zipCollect_dirs_mem cfg.paths entries, ?_, ?_, ?_⟩
  · intro d hd
    rw [zipReplicate]
    rw [takeWhile_all_append _ _ _
      (fun a ha => by
        rw [prepass_writefree dst cfg.removeFirst _ a ha]; rfl)]
    refine List.mem_append_left _ (List.mem_flatten.mpr ?_)
    exact ⟨prepOps (joinP dst d) cfg.removeFirst,
      List.mem_map.mpr ⟨d, hd, rfl⟩, List.mem_cons_self _ _⟩
  · rw [zipReplicate]
    exact preparedB_append _ _ []
      (prepass_writefree dst cfg.removeFirst _)
      (extract_prepared dst _)
  · intro p c m
    rw [zipReplicate]
    constructor
    · intro hmem
      rcases List.mem_append.mp hmem with hA | hB
      · have := prepass_writefree dst cfg.removeFirst
          (zipCollect cfg.paths entries).1 _ hA
        simp [isWriteOp] at this
      · rcases List.mem_flatten.mp hB with ⟨blk, hblk, hin⟩
        rcases List.mem_map.mp hblk with ⟨e, he, rfl⟩
        rcases List.mem_cons.mp hin with h1 | h2
        · cases h1
        · rcases List.mem_singleton.mp h2 with h3
          cases h3
          have he2 := he
          rw [zipCollect_files] at he2
          rcases List.mem_filter.mp he2 with ⟨hent, hsel⟩
          have hsel2 : e.isDir = false ∧
              (cfg.paths.any fun pa => strPre pa e.name) = true := by
            simpa using hsel
          exact ⟨e, hent, hsel2.2, hsel2.1, rfl, rfl, rfl⟩
    · rintro ⟨e, hent, hany, hnd, rfl, rfl, rfl⟩
      refine List.mem_append_right _ (List.mem_flatten.mpr ?_)
      refine ⟨extractOps dst e, List.mem_map.mpr ⟨e, ?_, rfl⟩,
        List.mem_cons_of_mem _ (List.mem_singleton.mpr rfl)⟩
      rw [zipCollect_files]
      exact List.mem_filter.mpr ⟨hent, by simp [hnd, hany]⟩

/-- Witness for C2 (amended) at the counterexample archive: the two file
entries are selected, the trace is well prepared, and the extracted writes
are exactly the selected entries. -/
theorem c2_witness :
    preparedB []
      (zipReplicate "d" { removeFirst := true, paths := ["a/", "c/"] }
        [{ name := "a/b/f1", isDir := false, content := "x", fmode := 420 },
         { name := "c/e/f2", isDir := false, content := "y", fmode := 420 }]) =
      true ∧
    FSOp.writeFile "d/a/b/f1" "x" 420 ∈
      zipReplicate "d" { removeFirst := true, paths := ["a/", "c/"] }
        [{ name := "a/b/f1", isDir := false, content := "x", fmode := 420 },
         { name := "c/e/f2", isDir := false, content := "y", fmode := 420 }] := by
  constructor
  · exact (c2_zip_replicate "d" _ _).2.2.2.1
  · exact ((c2_zip_replicate "d" _ _).2.2.2.2 "d/a/b/f1" "x" 420).mpr
      ⟨_, List.mem_cons_self _ _, by decide, rfl, rfl, rfl, rfl⟩

/-! ## Helper lemmas: prefixes and paths -/

theorem listPre_iff_append (a b : List Char) :
    listPre a b = true ↔ ∃ t, b = a ++ t := by
  induction a generalizing b with
  | nil => simp [listPre]
  | cons x as ih =>
    cases b with
    | nil =>
      simp only [listPre, Bool.false_eq_true, false_iff]
      rintro ⟨t, ht⟩
      cases ht
    | cons y bs =>
      simp only [listPre, Bool.and_eq_true, beq_iff_eq, ih]
      constructor
      · rintro ⟨rfl, t, rfl⟩
        exact ⟨t, rfl⟩
      · rintro ⟨t, ht⟩
        injection ht with h1 h2
        exact ⟨h1.symm, t, h2⟩

theorem listPre_append (l m : List Char) : listPre l (l ++ m) = true :=
  (listPre_iff_append l (l ++ m)).mpr ⟨m, rfl⟩

theorem listPre_refl (l : List Char) : listPre l l = true := by
  simpa using listPre_append l []

theorem listPre_trans {a b c : List Char} (h1 : listPre a b = true)
    (h2 : listPre b c = true) : listPre a c = true := by
  rcases (listPre_iff_append a b).mp h1 with ⟨t1, rfl⟩
  rcases (listPre_iff_append _ c).mp h2 with ⟨t2, rfl⟩
  exact (listPre_iff_append _ _).mpr ⟨t1 ++ t2, by simp⟩

theorem listPre_length {a b : List Char} (h : listPre a b = true) :
    a.length ≤ b.length := by
  rcases (listPre_iff_append a b).mp h with ⟨t, rfl⟩
  simp

theorem listPre_total {a b c : List Char} (ha : listPre a c = true)
    (hb : listPre b c = true) :
    listPre a b = true ∨ listPre b a = true := by
  induction c generalizing a b with
  | nil =>
    rcases (listPre_iff_append _ _).mp ha with ⟨t1, h1⟩
    rcases List.append_eq_nil.mp h1.symm with ⟨rfl, rfl⟩
    exact Or.inl rfl
  | cons x cs ih =>
    cases a with
    | nil => exact Or.inl rfl
    | cons y as =>
      cases b with
      | nil => exact Or.inr rfl
      | cons z bs =>
        simp only [listPre, Bool.and_eq_true, beq_iff_eq] at ha hb ⊢
        rcases ha with ⟨rfl, ha2⟩
        rcases hb with ⟨rfl, hb2⟩
        rcases ih ha2 hb2 with h | h
        · exact Or.inl ⟨rfl, h⟩
        · exact Or.inr ⟨rfl, h⟩

theorem listPre_concat_split {x y : List Char} {c : Char}
    (h : listPre (x ++ [c]) (y ++ [c]) = true) :
    x = y ∨ listPre (x ++ [c]) y = true := by
  rcases (listPre_iff_append _ _).mp h with ⟨s, hs⟩
  rcases List.eq_nil_or_concat s with rfl | ⟨s2, a, rfl⟩
  · left
    have := hs.symm
    rw [List.append_nil] at this
    exact List.append_cancel_right this
  · right
    rw [List.concat_eq_append] at hs
    have h2 : y ++ [c] = (x ++ [c] ++ s2) ++ [a] := by
      rw [hs]; simp
    have h3 : y = x ++ [c] ++ s2 := by
      have := congrArg List.dropLast h2
      rwa [List.dropLast_concat, List.dropLast_concat] at this
    rw [h3]
    exact listPre_append _ _

theorem strData_append (a b : String) : (a ++ b).data = a.data ++ b.data := by
  simp [String.data_append]

theorem strEq_of_data (a b : String) (h : a.data = b.data) : a = b :=
  String.ext h

theorem joinP_data (a b : String) :
    (joinP a b).data = a.data ++ '/' :: b.data := by
  simp [joinP, strData_append]

theorem slashData (a : String) : (a ++ "/").data = a.data ++ ['/'] := by
  simp [strData_append]

theorem underEq_refl (r : String) : underEqB r r = true := by
  simp [underEqB]

theorem strictUnder_irrefl (r : String) : strictUnderB r r = false := by
  rcases h : strictUnderB r r with _ | _
  · rfl
  · exfalso
    have := listPre_length (by simpa [strictUnderB, strPre, slashData] using h)
    simp at this

theorem underEq_join (r b : String) : underEqB r (joinP r b) = true := by
  have : strPre (r ++ "/") (joinP r b) = true := by
    unfold strPre
    rw [slashData, joinP_data]
    have : r.data ++ '/' :: b.data = (r.data ++ ['/']) ++ b.data := by simp
    rw [this]
    exact listPre_append _ _
  simp [underEqB, this]

theorem underEq_iff (r p : String) :
    underEqB r p = true ↔ r = p ∨ listPre (r.data ++ ['/']) p.data = true := by
  unfold underEqB strPre
  rw [slashData]
  simp [Bool.or_eq_true, beq_iff_eq]

theorem underEq_trans {a b p : String} (h1 : underEqB a b = true)
    (h2 : underEqB b p = true) : underEqB a p = true := by
  rcases (underEq_iff a b).mp h1 with rfl | hab
  · exact h2
  · rcases (underEq_iff b p).mp h2 with rfl | hbp
    · exact h1
    · refine (underEq_iff a p).mpr (Or.inr ?_)
      have hb : listPre b.data p.data = true :=
        listPre_trans (listPre_append b.data ['/']) hbp
      exact listPre_trans hab hb

theorem underEq_comparable {a b q : String} (ha : underEqB a q = true)
    (hb : underEqB b q = true) :
    underEqB a b = true ∨ underEqB b a = true := by
  rcases (underEq_iff a q).mp ha with rfl | ha2
  · exact Or.inr hb
  · rcases (underEq_iff b q).mp hb with rfl | hb2
    · exact Or.inl ha
    · rcases listPre_total ha2 hb2 with h | h
      · rcases listPre_concat_split h with he | hs
        · exact Or.inl ((underEq_iff a b).mpr (Or.inl (strEq_of_data a b he)))
        · exact Or.inl ((underEq_iff a b).mpr (Or.inr hs))
      · rcases listPre_concat_split h with he | hs
        · exact Or.inr ((underEq_iff b a).mpr (Or.inl (strEq_of_data b a he)))
        · exact Or.inr ((underEq_iff b a).mpr (Or.inr hs))

theorem no_common {a b : String} (h1 : underEqB a b = false)
    (h2 : underEqB b a = false) {q : String} (hq : underEqB a q = true) :
    underEqB b q = false := by
  rcases hbq : underEqB b q with _ | _
  · rfl
  · rcases underEq_comparable hq hbq with h | h
    · rw [h] at h1; cases h1
    · rw [h] at h2; cases h2

theorem underEq_of_strict {r p : String} (h : strictUnderB r p = true) :
    underEqB r p = true := by
  simp [underEqB, strictUnderB] at h ⊢
  exact Or.inr h

theorem strict_of_underEq_ne {r p : String} (h : underEqB r p = true)
    (hne : ¬(p = r)) : strictUnderB r p = true := by
  rcases (underEq_iff r p).mp h with rfl | h2
  · exact absurd rfl hne
  · unfold strictUnderB strPre
    rwa [slashData]

theorem joinP_ne_left (a b : String) : ¬(joinP a b = a) := by
  intro h
  have := congrArg (fun s => s.data.length) h
  simp only [joinP_data] at this
  simp at this

theorem joinP_left_inj {a b1 b2 : String} (h : joinP a b1 = joinP a b2) :
    b1 = b2 := by
  have hd := congrArg String.data h
  rw [joinP_data, joinP_data] at hd
  have := List.append_cancel_left hd
  injection this with _ h2
  exact strEq_of_data b1 b2 h2

theorem relSuffix_join (a b : String) : relSuffix a (joinP a b) = b := by
  unfold relSuffix strDrop strLenC
  apply strEq_of_data
  show (joinP a b).data.drop (a.data.length + 1) = b.data
  rw [joinP_data]
  have h1 : a.data ++ '/' :: b.data = (a.data ++ ['/']) ++ b.data := by simp
  rw [h1]
  have h2 : a.data.length + 1 = (a.data ++ ['/']).length := by simp
  rw [h2]
  exact List.drop_left _ _

theorem join_relSuffix {d p : String} (h : strictUnderB d p = true) :
    joinP d (relSuffix d p) = p := by
  unfold strictUnderB strPre at h
  rw [slashData] at h
  rcases (listPre_iff_append _ _).mp h with ⟨t, ht⟩
  apply strEq_of_data
  rw [joinP_data]
  unfold relSuffix strDrop strLenC
  show d.data ++ '/' :: (p.data.drop (d.data.length + 1)) = p.data
  rw [ht]
  have h2 : d.data.length + 1 = (d.data ++ ['/']).length := by simp
  rw [h2, List.drop_left]
  simp

theorem absGo_absolute (cwd p : String) (hc : strPre "/" cwd = true)
    (hb : strPre "__BAZEL_" p = false) :
    strPre "/" (absGo cwd p) = true := by
  unfold absGo
  rw [hb]
  simp only [Bool.false_eq_true, if_false]
  unfold filepathAbs
  rcases hp : strPre "/" p with _ | _
  · simp only [Bool.false_eq_true, if_false]
    show listPre ['/'] (joinP cwd p).data = true
    rw [joinP_data]
    have hc2 : listPre ['/'] cwd.data = true := hc
    rcases (listPre_iff_append _ _).mp hc2 with ⟨t, ht⟩
    rw [ht]
    simp [listPre]
  · simp [hp]

/-- C6: path absolutization rewrites to an absolute path the value attached
to a qualifying flag in each of the three forms — directly concatenated,
`=`-joined, or as the following token (for every flag list, token and
remaining argument list) — leaves every token matching no flag unchanged,
passes `__BAZEL_` sentinel values through untouched, produces genuinely
absolute results, and on the spec's example list yields exactly the
expected output. -/
theorem c6_absArgs (cwd : String) :
    absArgs cwd ["-I", "rel/path", "-Lrel2", "__BAZEL_XCODE/foo"] ["-I", "-L"] =
      ["-I", cwd ++ "/rel/path", "-L" ++ (cwd ++ "/rel2"), "__BAZEL_XCODE/foo"] ∧
    absArgs cwd ["-I=rel/path"] ["-I"] = ["-I=" ++ (cwd ++ "/rel/path")] ∧
    (∀ p, strPre "__BAZEL_" p = true → absGo cwd p = p) ∧
    (∀ flags args, (∀ a ∈ args, ∀ f ∈ flags, strPre f a = false) →
      absArgs cwd args flags = args) ∧
    (∀ flags a rest, flags.find? (fun f => strPre f a) = none →
      absArgs cwd (a :: rest) flags = a :: absArgs cwd rest flags) ∧
    (∀ flags f a v rest, flags.find? (fun f => strPre f a) = some f →
      strDrop a (strLenC f) = "" →
      absArgs cwd (a :: v :: rest) flags =
        a :: absGo cwd v :: absArgs cwd rest flags) ∧
    (∀ flags f a, flags.find? (fun f => strPre f a) = some f →
      strDrop a (strLenC f) = "" → absArgs cwd [a] flags = [a]) ∧
    (∀ flags f a rest c w, flags.find? (fun f => strPre f a) = some f →
      (strDrop a (strLenC f)).data = c :: w → ¬(c = '=') →
      absArgs cwd (a :: rest) flags =
        (f ++ absGo cwd (strDrop a (strLenC f))) :: absArgs cwd rest flags) ∧
    (∀ flags f a rest w, flags.find? (fun f => strPre f a) = some f →
      (strDrop a (strLenC f)).data = '=' :: w →
      absArgs cwd (a :: rest) flags =
        (f ++ "=" ++ absGo cwd (⟨w⟩ : String)) :: absArgs cwd rest flags) ∧
    (∀ p, strPre "/" cwd = true → strPre "__BAZEL_" p = false →
      strPre "/" (absGo cwd p) = true) := by
  refine ⟨?_, ?_, ?_, absArgs_no_flag cwd, ?_, ?_, ?_, ?_, ?_,
    fun p hc hb => absGo_absolute cwd p hc hb⟩
  · have h1 : absArgs cwd ["-I", "rel/path", "-Lrel2", "__BAZEL_XCODE/foo"]
        ["-I", "-L"] =
        ["-I", absGo cwd "rel/path", "-L" ++ absGo cwd "rel2",
         "__BAZEL_XCODE/foo"] := rfl
    rw [h1, absGo_rel cwd "rel/path" (by decide) (by decide),
      absGo_rel cwd "rel2" (by decide) (by decide), strAppend_assoc,
      strAppend_assoc]
    rfl
  · have h1 : absArgs cwd ["-I=rel/path"] ["-I"] =
        ["-I=" ++ absGo cwd "rel/path"] := rfl
    rw [h1, absGo_rel cwd "rel/path" (by decide) (by decide), strAppend_assoc]
    rfl
  · intro p hp
    simp [absGo, hp]
  · intro flags a rest hf
    rw [absArgs_cons, absOneTok_none cwd flags a hf]
    rfl
  · intro flags f a v rest hf hv
    rw [absArgs_cons, absOneTok_exact cwd flags a f hf hv]
    rfl
  · intro flags f a hf hv
    rw [absArgs_cons, absOneTok_exact cwd flags a f hf hv]
    rfl
  · intro flags f a rest c w hf hd hne
    rw [absArgs_cons, absOneTok_attached cwd flags a f c w hf hd hne]
    rfl
  · intro flags f a rest w hf hd
    rw [absArgs_cons, absOneTok_eq_joined cwd flags a f w hf hd]
    rfl

/-- Witness for C6 at a concrete working directory. -/
theorem c6_witness :
    absArgs "/work" ["-I", "rel/path", "-Lrel2", "__BAZEL_XCODE/foo"]
        ["-I", "-L"] =
      ["-I", "/work/rel/path", "-L/work/rel2", "__BAZEL_XCODE/foo"] ∧
    absArgs "/work" ["plain", "file.go"] ["-I", "-L"] = ["plain", "file.go"] ∧
    absArgs "/work" ["-I", "x"] ["-I"] = ["-I", "/work/x"] := by
  refine ⟨?_, ?_, ?_⟩
  · rw [(c6_absArgs "/work").1]
    rfl
  · exact (c6_absArgs "/work").2.2.2.1 ["-I", "-L"] ["plain", "file.go"]
      (by decide)
  · rw [(c6_absArgs "/work").2.2.2.2.2.1 ["-I"] "-I" "-I" "x" []
      (by decide) (by decide)]
    rfl

/-! ## Helper lemmas: filesystem maps -/

theorem lookupA_filter_keep {α : Type} (pred : String × α → Bool)
    (fs : List (String × α)) (k : String)
    (h : ∀ kv : String × α, kv.1 = k → pred kv = true) :
    lookupA (fs.filter pred) k = lookupA fs k := by
  induction fs with
  | nil => rfl
  | cons kv t ih =>
    rcases hk : (kv.1 == k) with _ | _
    · rcases hp : pred kv with _ | _
      · simp [List.filter_cons, hp, lookupA, hk, ih]
      · simp [List.filter_cons, hp, lookupA, hk, ih]
    · have hk1 : kv.1 = k := by simpa using hk
      rw [List.filter_cons, h kv hk1]
      simp [lookupA, hk]

theorem lookupA_filter_drop {α : Type} (pred : String × α → Bool)
    (fs : List (String × α)) (k : String)
    (h : ∀ kv : String × α, kv.1 = k → pred kv = false) :
    lookupA (fs.filter pred) k = none := by
  induction fs with
  | nil => rfl
  | cons kv t ih =>
    rcases hk : (kv.1 == k) with _ | _
    · rcases hp : pred kv with _ | _
      · simp [List.filter_cons, hp, ih]
      · simp [List.filter_cons, hp, lookupA, hk, ih]
    · have hk1 : kv.1 = k := by simpa using hk
      rw [List.filter_cons, h kv hk1]
      simp [ih]

theorem lookupA_none_of_no_key {α : Type} (fs : List (String × α)) (k : String)
    (h : ∀ kv ∈ fs, ¬(kv.1 = k)) : lookupA fs k = none := by
  induction fs with
  | nil => rfl
  | cons kv t ih =>
    have hk : ¬(kv.1 == k) = true := by
      simpa using h kv (List.mem_cons_self kv t)
    simp only [lookupA, hk, if_false]
    exact ih (fun x hx => h x (List.mem_cons_of_mem kv hx))

theorem lookupA_some_mem {α : Type} {fs : List (String × α)} {k : String}
    {v : α} (h : lookupA fs k = some v) : (k, v) ∈ fs := by
  induction fs with
  | nil => cases h
  | cons kv t ih =>
    rcases hk : (kv.1 == k) with _ | _
    · rw [lookupA, hk] at h
      simp only [Bool.false_eq_true, if_false] at h
      exact List.mem_cons_of_mem kv (ih h)
    · rw [lookupA, hk] at h
      simp only [if_true] at h
      have hk1 : kv.1 = k := by simpa using hk
      have : kv = (k, v) := by
        cases kv
        cases h
        cases hk1
        rfl
      exact this ▸ List.mem_cons_self kv t

theorem lookupA_setFS (fs : FS) (k : String) (v : FileData) (p : String) :
    lookupA (setFS fs k v) p = if p = k then some v else lookupA fs p := by
  unfold setFS
  rw [lookupA_append]
  by_cases hpk : p = k
  · subst hpk
    rw [lookupA_filter_drop _ fs p (fun kv hkv => by simp [hkv])]
    simp [lookupA]
  · rw [lookupA_filter_keep _ fs p
      (fun kv hkv => by
        have : ¬(kv.1 == k) = true := by
          rw [hkv]; simpa using hpk
        simp [this])]
    have hne : ¬((k : String) == p) = true := by
      simpa using fun hh : k = p => hpk hh.symm
    rcases hl : lookupA fs p with _ | w
    · simp [lookupA, hne, hpk]
    · simp [hl, hpk]

theorem filter_absorb {α : Type} (p q : α → Bool) (l : List α)
    (h : ∀ a, p a = true → q a = true) :
    (l.filter q).filter p = l.filter p := by
  induction l with
  | nil => rfl
  | cons a t ih =>
    rcases hp : p a with _ | _
    · rcases hq : q a with _ | _
      · simp [List.filter_cons, hq, hp, ih]
      · simp [List.filter_cons, hq, hp, ih]
    · have hq := h a hp
      simp [List.filter_cons, hq, hp, ih]

theorem getLast?_cons_my {α : Type} (a : α) (l : List α) :
    (a :: l).getLast? =
      match l.getLast? with
      | some x => some x
      | none => some a := by
  induction l generalizing a with
  | nil => rfl
  | cons b t ih =>
    rw [List.getLast?_cons_cons, ih b]
    rcases ht : t.getLast? with _ | x <;> simp [ih b, ht]

theorem foldl_setFS_lookup (tgt : String × FileData → String) (L : FS)
    (base : FS) (p : String) :
    lookupA (L.foldl (fun acc e => setFS acc (tgt e) e.2) base) p =
      match (L.filter (fun e => tgt e == p)).getLast? with
      | some e => some e.2
      | none => lookupA base p := by
  induction L generalizing base with
  | nil => rfl
  | cons e T ih =>
    rw [List.foldl_cons, ih]
    rcases hm : (tgt e == p) with _ | _
    · simp only [List.filter_cons, hm, Bool.false_eq_true, if_false]
      rcases ht : (T.filter (fun e => tgt e == p)).getLast? with _ | x
      · simp only [ht]
        rw [lookupA_setFS]
        have : ¬(p = tgt e) := by
          intro hh
          rw [hh] at hm
          simp at hm
        simp [this]
      · simp [ht]
    · simp only [List.filter_cons, hm, if_true]
      rw [getLast?_cons_my]
      rcases ht : (T.filter (fun e => tgt e == p)).getLast? with _ | x
      · simp only [ht]
        rw [lookupA_setFS]
        have : p = tgt e := by simpa using (by simpa using hm : tgt e = p).symm
        simp [this]
      · simp [ht]

theorem setFS_filter (pred : String × FileData → Bool) (fs : FS) (k : String)
    (v : FileData) (h1 : pred (k, v) = false)
    (h2 : ∀ kv, pred kv = true → ¬(kv.1 = k)) :
    (setFS fs k v).filter pred = fs.filter pred := by
  unfold setFS
  rw [List.filter_append]
  have hsingle : ([(k, v)] : FS).filter pred = [] := by
    simp [List.filter_cons, h1]
  rw [hsingle, List.append_nil]
  exact filter_absorb pred _ fs
    (fun kv hkv => by simpa using h2 kv hkv)

theorem foldl_setFS_filter (pred : String × FileData → Bool)
    (tgt : String × FileData → String) (L : FS) (base : FS)
    (h1 : ∀ e ∈ L, pred (tgt e, e.2) = false)
    (h2 : ∀ e ∈ L, ∀ kv, pred kv = true → ¬(kv.1 = tgt e)) :
    (L.foldl (fun acc e => setFS acc (tgt e) e.2) base).filter pred =
      base.filter pred := by
  induction L generalizing base with
  | nil => rfl
  | cons e T ih =>
    rw [List.foldl_cons,
      ih (setFS base (tgt e) e.2)
        (fun x hx => h1 x (List.mem_cons_of_mem e hx))
        (fun x hx => h2 x (List.mem_cons_of_mem e hx))]
    exact setFS_filter pred base (tgt e) e.2
      (h1 e (List.mem_cons_self e T))
      (h2 e (List.mem_cons_self e T))

theorem insertByName_perm (e : String × FileData) (l : FS) :
    (insertByName e l).Perm (e :: l) := by
  induction l with
  | nil => exact List.Perm.refl _
  | cons x xs ih =>
    unfold insertByName
    split
    · exact List.Perm.refl _
    · exact (List.Perm.cons x ih).trans (List.Perm.swap e x xs)

theorem sortByName_perm (l : FS) : (sortByName l).Perm l := by
  induction l with
  | nil => exact List.Perm.refl _
  | cons x xs ih =>
    unfold sortByName
    rw [List.foldr_cons]
    exact (insertByName_perm x _).trans (List.Perm.cons x ih)

theorem mem_sortByName (l : FS) (x : String × FileData) :
    x ∈ sortByName l ↔ x ∈ l :=
  (sortByName_perm l).mem_iff

theorem strictUnder_join (s b : String) : strictUnderB s (joinP s b) = true := by
  unfold strictUnderB strPre
  rw [slashData, joinP_data]
  have h : s.data ++ '/' :: b.data = (s.data ++ ['/']) ++ b.data := by simp
  rw [h]
  exact listPre_append _ _

theorem cross_not_under {src dst d : String}
    (hdisj1 : underEqB src dst = false) (hdisj2 : underEqB dst src = false)
    (hd : underEqB dst d = true) : underEqB src d = false := by
  rcases h : underEqB src d with _ | _
  · rfl
  · rcases underEq_comparable h hd with hc | hc
    · rw [hc] at hdisj1; cases hdisj1
    · rw [hc] at hdisj2; cases hdisj2

theorem cross_not_under2 {src dst d : String}
    (hdisj2 : underEqB dst src = false) (hd : underEqB dst d = true) :
    underEqB d src = false := by
  rcases h : underEqB d src with _ | _
  · rfl
  · have := underEq_trans hd h
    rw [this] at hdisj2
    cases hdisj2

theorem goodSrc_pairs {src : String} {fs : FS} (hg : GoodSrc src fs)
    {x y : String × FileData} (hx : x ∈ fs) (hy : y ∈ fs)
    (hxs : underEqB src x.1 = true) (hys : underEqB src y.1 = true)
    (hne : x ≠ y) :
    x.1 ≠ y.1 ∧ strictUnderB x.1 y.1 = false ∧
      strictUnderB y.1 x.1 = false := by
  have hsym : Symmetric (fun a b : String × FileData =>
      a.1 ≠ b.1 ∧ strictUnderB a.1 b.1 = false ∧
        strictUnderB b.1 a.1 = false) :=
    fun a b h => ⟨fun hh => h.1 hh.symm, h.2.2, h.2.1⟩
  exact List.Pairwise.forall hsym hg
    (List.mem_filter.mpr ⟨hx, by simpa [srcSideB] using hxs⟩)
    (List.mem_filter.mpr ⟨hy, by simpa [srcSideB] using hys⟩) hne

theorem goodSrc_no_nest {src : String} {fs : FS} (hg : GoodSrc src fs)
    {x y : String × FileData} (hx : x ∈ fs) (hy : y ∈ fs)
    (hxs : underEqB src x.1 = true) (hys : underEqB src y.1 = true)
    (hnest : strictUnderB x.1 y.1 = true) : False := by
  by_cases hne : x = y
  · rw [hne, strictUnder_irrefl] at hnest
    cases hnest
  · have := (goodSrc_pairs hg hx hy hxs hys hne).2.1
    rw [this] at hnest
    cases hnest

theorem goodSrc_key_unique {src : String} {fs : FS} (hg : GoodSrc src fs)
    {x y : String × FileData} (hx : x ∈ fs) (hy : y ∈ fs)
    (hxs : underEqB src x.1 = true) (hys : underEqB src y.1 = true)
    (hkey : y.1 = x.1) : y = x := by
  by_cases hne : y = x
  · exact hne
  · exact absurd hkey (goodSrc_pairs hg hy hx hys hxs hne).1

theorem lookupA_of_mem_unique {fs : FS} {x : String × FileData} (hx : x ∈ fs)
    (huniq : ∀ y ∈ fs, y.1 = x.1 → y = x) : lookupA fs x.1 = some x.2 := by
  induction fs with
  | nil => cases hx
  | cons kv t ih =>
    rcases hk : (kv.1 == x.1) with _ | _
    · have hxt : x ∈ t := by
        rcases List.mem_cons.mp hx with rfl | h
        · simp at hk
        · exact h
      rw [lookupA, hk]
      simp only [Bool.false_eq_true, if_false]
      exact ih hxt (fun y hy hky => huniq y (List.mem_cons_of_mem kv hy) hky)
    · have hk1 : kv.1 = x.1 := by simpa using hk
      have heq : kv = x := huniq kv (List.mem_cons_self kv t) hk1
      rw [lookupA, hk]
      simp [heq]

theorem removeAllFS_lookup_none {d q : String} (h : underEqB d q = true)
    (fs : FS) : lookupA (removeAllFS d fs) q = none :=
  lookupA_filter_drop _ fs q (fun kv hkv => by simp [hkv, h])

theorem removeAllFS_lookup_keep {d q : String} (h : underEqB d q = false)
    (fs : FS) : lookupA (removeAllFS d fs) q = lookupA fs q :=
  lookupA_filter_keep _ fs q (fun kv hkv => by simp [hkv, h])

theorem removeAllFS_filter_keep (pred : String × FileData → Bool)
    {d : String} (fs : FS)
    (h : ∀ kv : String × FileData, pred kv = true → underEqB d kv.1 = false) :
    (removeAllFS d fs).filter pred = fs.filter pred :=
  filter_absorb pred _ fs (fun kv hkv => by simp [h kv hkv])

/-- Central characterization of `replicateTreeCopy fs s d` succeeding with
`out`, for a source root `s` at or below `src` and a destination root `d` at
or below `dst`, with `src` and `dst` unrelated: every path at or below `d`
afterwards holds what the mirrored source path held in `fs`, every other
path is untouched, and the source view (entries at or below `src`) is
preserved verbatim. -/
theorem treeCopyChar {src dst s d : String} {fs out : FS}
    (hs : underEqB src s = true) (hd : underEqB dst d = true)
    (hdisj1 : underEqB src dst = false) (hdisj2 : underEqB dst src = false)
    (hg : GoodSrc src fs)
    (hok : replicateTreeCopy fs s d = .ok out) :
    (∀ p, lookupA out p =
      if underEqB d p = true then lookupA fs (mirrorP s d p)
      else lookupA fs p) ∧
    out.filter (srcSideB src) = fs.filter (srcSideB src) := by
  have hsd : underEqB src d = false := cross_not_under hdisj1 hdisj2 hd
  have hds : underEqB d src = false := cross_not_under2 hdisj2 hd
  have hkey : ∀ q, underEqB src q = true → underEqB d q = false :=
    fun q hq => no_common hsd hds hq
  have hkey2 : ∀ q, underEqB d q = true → underEqB src q = false :=
    fun q hq => no_common hds hsd hq
  have hlook1 : ∀ q, underEqB src q = true →
      lookupA (removeAllFS d fs) q = lookupA fs q :=
    fun q hq => removeAllFS_lookup_keep (hkey q hq) fs
  have hpre_abs : ∀ kv : String × FileData, strPre (s ++ "/") kv.1 = true →
      underEqB src kv.1 = true :=
    fun kv hkv => underEq_trans hs (underEq_of_strict hkv)
  have hent_mem : ∀ e ∈ goFileEntries (removeAllFS d fs) s,
      e ∈ fs ∧ strPre (s ++ "/") e.1 = true := by
    intro e he
    have he2 := (mem_sortByName _ e).mp he
    rcases List.mem_filter.mp he2 with ⟨hin, hpre⟩
    exact ⟨List.mem_of_mem_filter hin, hpre⟩
  rcases hcase : (goFileEntries (removeAllFS d fs) s).isEmpty with _ | _
  · -- directory branch: the walk copies every file below s
    have hout : out = (goFileEntries (removeAllFS d fs) s).foldl
        (fun acc e => setFS acc (joinP d (relSuffix s e.1)) e.2)
        (removeAllFS d fs) := by
      unfold replicateTreeCopy at hok
      simp only [hcase, Bool.false_eq_true, if_false] at hok
      injection hok with h
      exact h.symm
    have hne_nil : goFileEntries (removeAllFS d fs) s ≠ [] := by
      intro hh
      rw [hh] at hcase
      simp at hcase
    constructor
    · intro p
      rw [hout]
      rw [foldl_setFS_lookup (fun e => joinP d (relSuffix s e.1)) _ _ p]
      rcases hpd : underEqB d p with _ | _
      · -- p untouched
        have hnil : (goFileEntries (removeAllFS d fs) s).filter
            (fun e => joinP d (relSuffix s e.1) == p) = [] := by
          refine List.filter_eq_nil_iff.mpr (fun e _ => ?_)
          intro hcontra
          have : joinP d (relSuffix s e.1) = p := by simpa using hcontra
          rw [← this, underEq_join] at hpd
          cases hpd
        rw [hnil]
        exact removeAllFS_lookup_keep hpd fs
      · by_cases hpd2 : p = d
        · -- p is the destination root itself: no file written there
          subst hpd2
          have hnil : (goFileEntries (removeAllFS p fs) s).filter
              (fun e => joinP p (relSuffix s e.1) == p) = [] := by
            refine List.filter_eq_nil_iff.mpr (fun e _ => ?_)
            intro hcontra
            have : joinP p (relSuffix s e.1) = p := by simpa using hcontra
            exact joinP_ne_left _ _ this
          rw [hnil]
          simp only [List.getLast?_nil, if_pos rfl]
          rw [removeAllFS_lookup_none (underEq_refl p) fs]
          have hm : mirrorP s p p = s := by simp [mirrorP]
          rw [hm]
          rcases hq : lookupA fs s with _ | w
          · rfl
          · exfalso
            rcases List.exists_mem_of_ne_nil _ hne_nil with ⟨e, he⟩
            rcases hent_mem e he with ⟨hef, hepre⟩
            exact goodSrc_no_nest hg (lookupA_some_mem hq) hef hs
              (hpre_abs e hepre) hepre
        · -- p strictly below d: p mirrors the source file s/rel
          have hstrict : strictUnderB d p = true :=
            strict_of_underEq_ne hpd hpd2
          have hpjoin : joinP d (relSuffix d p) = p := join_relSuffix hstrict
          have hmir : mirrorP s d p = joinP s (relSuffix d p) := by
            simp [mirrorP, hpd2]
          have hq'src : underEqB src (joinP s (relSuffix d p)) = true :=
            underEq_trans hs (underEq_of_strict (strictUnder_join s _))
          have hcongr : (goFileEntries (removeAllFS d fs) s).filter
              (fun e => joinP d (relSuffix s e.1) == p) =
              (goFileEntries (removeAllFS d fs) s).filter
              (fun e => e.1 == joinP s (relSuffix d p)) := by
            refine List.filter_congr (fun e he => ?_)
            rcases hent_mem e he with ⟨_, hepre⟩
            have hejoin : joinP s (relSuffix s e.1) = e.1 :=
              join_relSuffix hepre
            by_cases hrel : relSuffix s e.1 = relSuffix d p
            · have h1 : joinP d (relSuffix s e.1) = p := by
                rw [hrel, hpjoin]
              have h2 : e.1 = joinP s (relSuffix d p) := by
                rw [← hejoin, hrel]
              rw [h1, h2]
              simp
            · have h1 : ¬(joinP d (relSuffix s e.1) = p) := by
                intro hh
                rw [← hpjoin] at hh
                exact hrel (joinP_left_inj hh)
              have h2 : ¬(e.1 = joinP s (relSuffix d p)) := by
                intro hh
                rw [← hejoin] at hh
                exact hrel (joinP_left_inj hh)
              simp [h1, h2]
          rw [hcongr, hmir]
          rcases hlast : ((goFileEntries (removeAllFS d fs) s).filter
              (fun e => e.1 == joinP s (relSuffix d p))).getLast? with _ | e
          · -- no source file at the mirrored path
            have hnil : (goFileEntries (removeAllFS d fs) s).filter
                (fun e => e.1 == joinP s (relSuffix d p)) = [] :=
              List.getLast?_eq_none_iff.mp hlast
            rw [hnil]
            simp only [List.getLast?_nil, if_pos rfl]
            rw [removeAllFS_lookup_none hpd fs, if_pos trivial]
            symm
            refine lookupA_none_of_no_key fs _ (fun kv hkv hkeyq => ?_)
            have hkvpre : strPre (s ++ "/") kv.1 = true := by
              rw [hkeyq]
              exact strictUnder_join s _
            have hkv1 : kv ∈ removeAllFS d fs :=
              List.mem_filter.mpr ⟨hkv, by
                simp [hkey kv.1 (hpre_abs kv hkvpre)]⟩
            have hkv2 : kv ∈ goFileEntries (removeAllFS d fs) s :=
              (mem_sortByName _ kv).mpr
                (List.mem_filter.mpr ⟨hkv1, hkvpre⟩)
            have : kv ∈ (goFileEntries (removeAllFS d fs) s).filter
                (fun e => e.1 == joinP s (relSuffix d p)) :=
              List.mem_filter.mpr ⟨hkv2, by simp [hkeyq]⟩
            rw [hnil] at this
            cases this
          · -- the last matching walk entry is the unique source file there
            have hemem : e ∈ (goFileEntries (removeAllFS d fs) s).filter
                (fun e => e.1 == joinP s (relSuffix d p)) := by
              have hx : e ∈ ((goFileEntries (removeAllFS d fs) s).filter
                  (fun e => e.1 == joinP s (relSuffix d p))).getLast? := by
                simp [Option.mem_def, hlast]
              rcases List.mem_getLast?_eq_getLast hx with ⟨hne2, rfl⟩
              exact List.getLast_mem hne2
            rcases List.mem_filter.mp hemem with ⟨hein, hekey⟩
            have hekey2 : e.1 = joinP s (relSuffix d p) := by simpa using hekey
            rcases hent_mem e hein with ⟨hef, hepre⟩
            have hesrc : underEqB src e.1 = true := hpre_abs e hepre
            rw [hlast]
            show some e.2 = if true = true then
              lookupA fs (joinP s (relSuffix d p)) else lookupA fs p
            rw [if_pos rfl, ← hekey2]
            symm
            exact lookupA_of_mem_unique hef (fun y hy hky =>
              goodSrc_key_unique hg hef hy hesrc (by
                rw [hky]; exact hesrc) hky)
    · rw [hout]
      rw [foldl_setFS_filter (srcSideB src) _ _ _ ?ha ?hb]
      case ha =>
        intro e _
        simp only [srcSideB]
        exact hkey2 _ (underEq_join d _)
      case hb =>
        intro e _ kv hkv
        intro hkeq
        have : underEqB d kv.1 = true := by
          rw [hkeq]; exact underEq_join d _
        rw [hkey kv.1 (by simpa [srcSideB] using hkv)] at this
        cases this
      exact removeAllFS_filter_keep _ fs
        (fun kv hkv => hkey kv.1 (by simpa [srcSideB] using hkv))
  · -- file branch: s names a single file, copied to d
    have hok2 := hok
    unfold replicateTreeCopy at hok2
    simp only [hcase, if_true] at hok2
    rcases hls : lookupA (removeAllFS d fs) s with _ | v
    · rw [hls] at hok2
      cases hok2
    · rw [hls] at hok2
      have hout : out = setFS (removeAllFS d fs) d v := by
        injection hok2 with h
        exact h.symm
      have hfs_s : lookupA fs s = some v := by
        rw [← hlook1 s hs]
        exact hls
      constructor
      · intro p
        rw [hout, lookupA_setFS]
        by_cases hpd2 : p = d
        · subst hpd2
          rw [if_pos rfl, if_pos (underEq_refl p)]
          have hm : mirrorP s p p = s := by simp [mirrorP]
          rw [hm, hfs_s]
        · rw [if_neg hpd2]
          rcases hpd : underEqB d p with _ | _
          · simp only [Bool.false_eq_true, if_false]
            exact removeAllFS_lookup_keep hpd fs
          · simp only [if_true]
            rw [removeAllFS_lookup_none hpd fs]
            have hstrict : strictUnderB d p = true :=
              strict_of_underEq_ne hpd hpd2
            have hmir : mirrorP s d p = joinP s (relSuffix d p) := by
              simp [mirrorP, hpd2]
            rw [hmir]
            symm
            rcases hq : lookupA fs (joinP s (relSuffix d p)) with _ | w
            · rfl
            · exfalso
              have hqs : strictUnderB s (joinP s (relSuffix d p)) = true :=
                strictUnder_join s _
              exact goodSrc_no_nest hg (lookupA_some_mem hfs_s)
                (lookupA_some_mem hq) hs
                (underEq_trans hs (underEq_of_strict hqs)) hqs
      · rw [hout]
        rw [setFS_filter (srcSideB src) _ d v ?h1 ?h2]
        case h1 =>
          simp only [srcSideB]
          exact hsd
        case h2 =>
          intro kv hkv hkeq
          simp only [srcSideB] at hkv
          rw [hkeq, hsd] at hkv
          cases hkv
        exact removeAllFS_filter_keep _ fs
          (fun kv hkv => hkey kv.1 (by simpa [srcSideB] using hkv))

theorem lookup_by_srcview {src q : String} (hq : underEqB src q = true)
    {g fs : FS} (hv : g.filter (srcSideB src) = fs.filter (srcSideB src)) :
    lookupA g q = lookupA fs q := by
  have hg2 := lookupA_filter_keep (srcSideB src) g q
    (fun kv hkv => by simp [srcSideB, hkv, hq])
  have hf2 := lookupA_filter_keep (srcSideB src) fs q
    (fun kv hkv => by simp [srcSideB, hkv, hq])
  rw [← hg2, hv, hf2]

theorem filter_pre_by_srcview {src s : String} (hs : underEqB src s = true)
    {g fs : FS} (hv : g.filter (srcSideB src) = fs.filter (srcSideB src)) :
    g.filter (fun kv => strPre (s ++ "/") kv.1) =
      fs.filter (fun kv => strPre (s ++ "/") kv.1) := by
  have habs : ∀ kv : String × FileData,
      strPre (s ++ "/") kv.1 = true → srcSideB src kv = true := by
    intro kv hkv
    simpa [srcSideB] using underEq_trans hs (underEq_of_strict hkv)
  rw [← filter_absorb _ (srcSideB src) g habs, hv,
    filter_absorb _ (srcSideB src) fs habs]

theorem treeCopy_reads {src dst s d : String} {g fs : FS}
    (hs : underEqB src s = true) (hd : underEqB dst d = true)
    (hdisj1 : underEqB src dst = false) (hdisj2 : underEqB dst src = false)
    (hv : g.filter (srcSideB src) = fs.filter (srcSideB src)) :
    goFileEntries (removeAllFS d g) s = goFileEntries (removeAllFS d fs) s ∧
    lookupA (removeAllFS d g) s = lookupA (removeAllFS d fs) s := by
  have hsd := cross_not_under hdisj1 hdisj2 hd
  have hds := cross_not_under2 hdisj2 hd
  have hkey : ∀ q, underEqB src q = true → underEqB d q = false :=
    fun q hq => no_common hsd hds hq
  have hpre_abs : ∀ kv : String × FileData, strPre (s ++ "/") kv.1 = true →
      underEqB src kv.1 = true :=
    fun kv hkv => underEq_trans hs (underEq_of_strict hkv)
  constructor
  · unfold goFileEntries
    rw [removeAllFS_filter_keep _ g
        (fun kv hkv => hkey kv.1 (hpre_abs kv hkv)),
      removeAllFS_filter_keep _ fs
        (fun kv hkv => hkey kv.1 (hpre_abs kv hkv)),
      filter_pre_by_srcview hs hv]
  · rw [removeAllFS_lookup_keep (hkey s hs) g,
      removeAllFS_lookup_keep (hkey s hs) fs]
    exact lookup_by_srcview hs hv

theorem treeCopy_ok_transfer {src dst s d : String} {g fs out : FS}
    (hs : underEqB src s = true) (hd : underEqB dst d = true)
    (hdisj1 : underEqB src dst = false) (hdisj2 : underEqB dst src = false)
    (hv : g.filter (srcSideB src) = fs.filter (srcSideB src))
    (hok : replicateTreeCopy fs s d = .ok out) :
    ∃ gout, replicateTreeCopy g s d = .ok gout := by
  rcases treeCopy_reads hs hd hdisj1 hdisj2 hv with ⟨hent, hlook⟩
  have hgdef : replicateTreeCopy g s d =
      (if (goFileEntries (removeAllFS d g) s).isEmpty then
        match lookupA (removeAllFS d g) s with
        | none => Except.error ("stat " ++ s ++ ": no such file or directory")
        | some v => Except.ok (setFS (removeAllFS d g) d v)
      else Except.ok ((goFileEntries (removeAllFS d g) s).foldl
        (fun acc e => setFS acc (joinP d (relSuffix s e.1)) e.2)
        (removeAllFS d g))) := rfl
  have hfdef : replicateTreeCopy fs s d =
      (if (goFileEntries (removeAllFS d fs) s).isEmpty then
        match lookupA (removeAllFS d fs) s with
        | none => Except.error ("stat " ++ s ++ ": no such file or directory")
        | some v => Except.ok (setFS (removeAllFS d fs) d v)
      else Except.ok ((goFileEntries (removeAllFS d fs) s).foldl
        (fun acc e => setFS acc (joinP d (relSuffix s e.1)) e.2)
        (removeAllFS d fs))) := rfl
  rw [hfdef] at hok
  rw [hgdef, hent, hlook]
  rcases hcase : (goFileEntries (removeAllFS d fs) s).isEmpty with _ | _
  · simp only [hcase, Bool.false_eq_true, if_false]
    exact ⟨_, rfl⟩
  · simp only [hcase, if_true] at hok ⊢
    rcases hls : lookupA (removeAllFS d fs) s with _ | v
    · rw [hls] at hok
      cases hok
    · exact ⟨_, rfl⟩

theorem mirror_srcside {src s d : String} (hs : underEqB src s = true) :
    ∀ p, underEqB src (mirrorP s d p) = true := by
  intro p
  unfold mirrorP
  split
  · exact hs
  · exact underEq_trans hs (underEq_of_strict (strictUnder_join s _))

theorem goodSrc_of_view {src : String} {g fs : FS}
    (hv : g.filter (srcSideB src) = fs.filter (srcSideB src))
    (hg : GoodSrc src fs) : GoodSrc src g := by
  unfold GoodSrc
  rw [hv]
  exact hg

/-- Simulation of a filtered replication run from two states with identical
source views: the run from the second state succeeds, preserves the source
view, agrees with the first run on every path touched by some base, and
leaves every untouched path as it was. -/
theorem repBasesSim {src dst : String}
    (hdisj1 : underEqB src dst = false) (hdisj2 : underEqB dst src = false) :
    ∀ (bs : List String) (S R S1 : FS),
      GoodSrc src S →
      R.filter (srcSideB src) = S.filter (srcSideB src) →
      fsRepBases src dst S bs = .ok S1 →
      ∃ R1, fsRepBases src dst R bs = .ok R1 ∧
        R1.filter (srcSideB src) = S.filter (srcSideB src) ∧
        S1.filter (srcSideB src) = S.filter (srcSideB src) ∧
        (∀ p, (bs.any (fun b => underEqB (joinP dst b) p)) = true →
          lookupA R1 p = lookupA S1 p) ∧
        (∀ p, (bs.any (fun b => underEqB (joinP dst b) p)) = false →
          lookupA R1 p = lookupA R p) := by
  intro bs
  induction bs with
  | nil =>
    intro S R S1 hg hv hok
    unfold fsRepBases at hok
    injection hok with hS1
    subst hS1
    exact ⟨R, rfl, hv, rfl, fun p hp => by simp at hp, fun p _ => rfl⟩
  | cons b bs ih =>
    intro S R S1 hg hv hok
    have hs_b : underEqB src (joinP src b) = true :=
      underEq_of_strict (strictUnder_join src b)
    have hd_b : underEqB dst (joinP dst b) = true :=
      underEq_of_strict (strictUnder_join dst b)
    unfold fsRepBases at hok
    rcases hstep : replicateTreeCopy S (joinP src b) (joinP dst b) with e | S2
    · rw [hstep] at hok
      cases hok
    · rw [hstep] at hok
      have hok2 : fsRepBases src dst S2 bs = Except.ok S1 := hok
      rcases treeCopyChar hs_b hd_b hdisj1 hdisj2 hg hstep with ⟨hSchar, hSview⟩
      have hgR : GoodSrc src R := goodSrc_of_view hv hg
      rcases treeCopy_ok_transfer hs_b hd_b hdisj1 hdisj2 hv hstep
        with ⟨R2, hstepR⟩
      rcases treeCopyChar hs_b hd_b hdisj1 hdisj2 hgR hstepR with ⟨hRchar, hRview⟩
      have hgS2 : GoodSrc src S2 := goodSrc_of_view hSview hg
      have hv2 : R2.filter (srcSideB src) = S2.filter (srcSideB src) := by
        rw [hRview, hv, hSview]
      rcases ih S2 R2 S1 hgS2 hv2 hok2 with
        ⟨R1, hR1ok, hR1view, hS1view, htouched, huntouched⟩
      rcases ih S2 S2 S1 hgS2 rfl hok2 with
        ⟨S1b, hS1bok, _, _, _, hSuntouched⟩
      have hS1beq : S1b = S1 := by
        rw [hok2] at hS1bok
        injection hS1bok with h
        exact h.symm
      rw [hS1beq] at hSuntouched
      refine ⟨R1, ?_, ?_, ?_, ?_, ?_⟩
      · unfold fsRepBases
        rw [hstepR]
        exact hR1ok
      · rw [hR1view, hSview]
      · rw [hS1view, hSview]
      · intro p hp
        rcases htb : (bs.any (fun b => underEqB (joinP dst b) p)) with _ | _
        · have hhead : underEqB (joinP dst b) p = true := by
            rcases hh : underEqB (joinP dst b) p with _ | _
            · rw [List.any_cons, hh, htb] at hp
              cases hp
            · rfl
          have h1 : lookupA R1 p = lookupA R2 p := huntouched p htb
          have h2 : lookupA R2 p =
              lookupA R (mirrorP (joinP src b) (joinP dst b) p) := by
            rw [hRchar p, if_pos hhead]
          have h3 : lookupA R (mirrorP (joinP src b) (joinP dst b) p) =
              lookupA S (mirrorP (joinP src b) (joinP dst b) p) :=
            lookup_by_srcview (mirror_srcside hs_b _) hv
          have h4 : lookupA S2 p =
              lookupA S (mirrorP (joinP src b) (joinP dst b) p) := by
            rw [hSchar p, if_pos hhead]
          have h5 : lookupA S1 p = lookupA S2 p := hSuntouched p htb
          rw [h1, h2, h3, ← h4, ← h5]
        · exact htouched p htb
      · intro p hp
        rw [List.any_cons, Bool.or_eq_false_iff] at hp
        rw [huntouched p hp.2, hRchar p, if_neg (by simp [hp.1])]

theorem applyOp_mkdir (fs : FS) (d p : String) :
    lookupA (applyOp fs (FSOp.mkdirAll d)) p = lookupA fs p := rfl

theorem applyOp_remove (fs : FS) (q p : String) :
    lookupA (applyOp fs (FSOp.remove q)) p =
      if p = q then none else lookupA fs p := by
  show lookupA (fs.filter fun kv => !(kv.1 == q)) p = _
  by_cases hpq : p = q
  · subst hpq
    rw [lookupA_filter_drop _ fs p (fun kv hkv => by simp [hkv])]
    simp
  · rw [lookupA_filter_keep _ fs p (fun kv hkv => by rw [hkv]; simp [hpq])]
    rw [if_neg hpq]

theorem applyOp_removeAll (fs : FS) (q p : String) :
    lookupA (applyOp fs (FSOp.removeAll q)) p =
      if underEqB q p then none else lookupA fs p := by
  show lookupA (removeAllFS q fs) p = _
  rcases hu : underEqB q p with _ | _
  · rw [removeAllFS_lookup_keep hu fs]
    simp [hu]
  · rw [removeAllFS_lookup_none hu fs]
    simp [hu]

theorem applyOp_write (fs : FS) (q c : String) (m : Nat) (p : String) :
    lookupA (applyOp fs (FSOp.writeFile q c m)) p =
      if p = q then some { content := c, fmode := m } else lookupA fs p :=
  lookupA_setFS fs q { content := c, fmode := m } p

theorem applyOps_lookup (T : List FSOp) :
    ∀ (fs : FS) (p : String),
      lookupA (applyOps fs T) p =
        match traceOverride T p with
        | some r => r
        | none => lookupA fs p := by
  induction T with
  | nil =>
    intro fs p
    rfl
  | cons op T ih =>
    intro fs p
    cases op with
    | mkdirAll d =>
      have h1 : applyOps fs (FSOp.mkdirAll d :: T) = applyOps fs T := rfl
      have h2 : traceOverride (FSOp.mkdirAll d :: T) p =
          match traceOverride T p with
          | some r => some r
          | none => none := rfl
      rw [h1, ih fs p, h2]
      rcases ht : traceOverride T p with _ | r <;> rfl
    | remove q =>
      have h1 : applyOps fs (FSOp.remove q :: T) =
          applyOps (applyOp fs (FSOp.remove q)) T := rfl
      have h2 : traceOverride (FSOp.remove q :: T) p =
          match traceOverride T p with
          | some r => some r
          | none => if p = q then some none else none := rfl
      rw [h1, ih (applyOp fs (FSOp.remove q)) p, h2]
      rcases ht : traceOverride T p with _ | r
      · rw [applyOp_remove]
        by_cases hpq : p = q <;> simp [hpq]
      · rfl
    | removeAll q =>
      have h1 : applyOps fs (FSOp.removeAll q :: T) =
          applyOps (applyOp fs (FSOp.removeAll q)) T := rfl
      have h2 : traceOverride (FSOp.removeAll q :: T) p =
          match traceOverride T p with
          | some r => some r
          | none => if underEqB q p then some none else none := rfl
      rw [h1, ih (applyOp fs (FSOp.removeAll q)) p, h2]
      rcases ht : traceOverride T p with _ | r
      · rw [applyOp_removeAll]
        rcases hu : underEqB q p with _ | _ <;> simp [hu]
      · rfl
    | writeFile q c m =>
      have h1 : applyOps fs (FSOp.writeFile q c m :: T) =
          applyOps (applyOp fs (FSOp.writeFile q c m)) T := rfl
      have h2 : traceOverride (FSOp.writeFile q c m :: T) p =
          match traceOverride T p with
          | some r => some r
          | none =>
            if p = q then some (some { content := c, fmode := m })
            else none := rfl
      rw [h1, ih (applyOp fs (FSOp.writeFile q c m)) p, h2]
      rcases ht : traceOverride T p with _ | r
      · rw [applyOp_write]
        by_cases hpq : p = q <;> simp [hpq]
      · rfl

theorem applyOps_idem (T : List FSOp) (fs : FS) (p : String) :
    lookupA (applyOps (applyOps fs T) T) p = lookupA (applyOps fs T) p := by
  rw [applyOps_lookup T (applyOps fs T) p]
  rcases ht : traceOverride T p with _ | r
  · rfl
  · rw [applyOps_lookup T fs p, ht]

/-- C3: replaying a replication with identical arguments against a stable
source — the source and destination roots unrelated and the source side
wellformed — succeeds and yields identical tree contents at every path; and
in the default no-filter configuration the destination contents after
replication are a function of the source view alone (the destination is
removed wholesale first), so no file from a previous differently-shaped
replication survives a re-replication; and in archive mode, replaying the
effect trace of `zipReplicator.Replicate` with identical arguments over the
filesystem it already produced leaves every path's contents unchanged, for
every destination, configuration, entry list and starting filesystem. -/
theorem c3_replicate_idempotent (src dst : String)
    (hdisj1 : underEqB src dst = false) (hdisj2 : underEqB dst src = false) :
    (∀ paths fs fs1, GoodSrc src fs →
      fsReplicate fs src dst paths = .ok fs1 →
      ∃ fs2, fsReplicate fs1 src dst paths = .ok fs2 ∧
        ∀ p, lookupA fs2 p = lookupA fs1 p) ∧
    (∀ fs g fs1 g1, GoodSrc src fs → GoodSrc src g →
      g.filter (srcSideB src) = fs.filter (srcSideB src) →
      fsReplicate fs src dst [] = .ok fs1 →
      fsReplicate g src dst [] = .ok g1 →
      ∀ p, underEqB dst p = true → lookupA g1 p = lookupA fs1 p) ∧
    (∀ (zdst : String) (cfg : ZipConfig) (entries : List ZipEntry)
        (fs : FS) (p : String),
      lookupA (applyOps (applyOps fs (zipReplicate zdst cfg entries))
          (zipReplicate zdst cfg entries)) p =
        lookupA (applyOps fs (zipReplicate zdst cfg entries)) p) := by
  have hsrc : underEqB src src = true := underEq_refl src
  have hdst : underEqB dst dst = true := underEq_refl dst
  refine ⟨?_, ?_, fun zdst cfg entries fs p =>
    applyOps_idem (zipReplicate zdst cfg entries) fs p⟩
  · intro paths fs fs1 hg hok
    cases paths with
    | nil =>
      have hdef : ∀ h : FS,
          fsReplicate h src dst [] = replicateTreeCopy h src dst :=
        fun h => rfl
      rw [hdef] at hok
      rcases treeCopyChar hsrc hdst hdisj1 hdisj2 hg hok with ⟨hchar1, hview1⟩
      have hg1 : GoodSrc src fs1 := goodSrc_of_view hview1 hg
      rcases treeCopy_ok_transfer hsrc hdst hdisj1 hdisj2 hview1 hok
        with ⟨fs2, hok2⟩
      rcases treeCopyChar hsrc hdst hdisj1 hdisj2 hg1 hok2 with ⟨hchar2, _⟩
      refine ⟨fs2, by rw [hdef]; exact hok2, ?_⟩
      intro p
      rw [hchar2 p]
      by_cases hpd : underEqB dst p = true
      · rw [if_pos hpd]
        rw [lookup_by_srcview (mirror_srcside hsrc p) hview1]
        rw [hchar1 p, if_pos hpd]
      · rw [if_neg hpd]
    | cons b bs =>
      have hdef : ∀ h : FS,
          fsReplicate h src dst (b :: bs) = fsRepBases src dst h (b :: bs) :=
        fun h => rfl
      rw [hdef] at hok
      rcases repBasesSim hdisj1 hdisj2 (b :: bs) fs fs fs1 hg rfl hok with
        ⟨fs1b, _, _, hview1, _, _⟩
      rcases repBasesSim hdisj1 hdisj2 (b :: bs) fs fs1 fs1 hg hview1 hok with
        ⟨fs2, hok2, _, _, htouched, huntouched⟩
      refine ⟨fs2, by rw [hdef]; exact hok2, ?_⟩
      intro p
      rcases htp : ((b :: bs).any (fun bb => underEqB (joinP dst bb) p))
        with _ | _
      · exact huntouched p htp
      · exact htouched p htp
  · intro fs g fs1 g1 hgf hgg hv hokf hokg
    have hdeff : fsReplicate fs src dst [] = replicateTreeCopy fs src dst := rfl
    have hdefg : fsReplicate g src dst [] = replicateTreeCopy g src dst := rfl
    rw [hdeff] at hokf
    rw [hdefg] at hokg
    rcases treeCopyChar hsrc hdst hdisj1 hdisj2 hgf hokf with ⟨hcharf, _⟩
    rcases treeCopyChar hsrc hdst hdisj1 hdisj2 hgg hokg with ⟨hcharg, _⟩
    intro p hpd
    rw [hcharg p, if_pos hpd, hcharf p, if_pos hpd]
    exact lookup_by_srcview (mirror_srcside hsrc p) hv

/-- Witness for C3 at a concrete one-file source tree: the second run
succeeds and leaves the tree unchanged. -/
theorem c3_witness :
    ∃ fs2,
      fsReplicate
          [("s/a.txt", ({ content := "hello", fmode := 420 } : FileData)),
           ("t/a.txt", { content := "hello", fmode := 420 })]
          "s" "t" [] = Except.ok fs2 ∧
      ∀ p, lookupA fs2 p =
        lookupA [("s/a.txt", ({ content := "hello", fmode := 420 } : FileData)),
                 ("t/a.txt", { content := "hello", fmode := 420 })] p :=
  (c3_replicate_idempotent "s" "t" (by decide) (by decide)).1
    [] [("s/a.txt", { content := "hello", fmode := 420 })]
    [("s/a.txt", { content := "hello", fmode := 420 }),
     ("t/a.txt", { content := "hello", fmode := 420 })]
    (by unfold GoodSrc; decide) rfl

theorem zipCollect_nil_paths (entries : List ZipEntry) :
    zipCollect [] entries = ([], []) := by
  have h : ∀ acc : List String × List ZipEntry,
      entries.foldl
        (fun acc e =>
          match ([] : List String).find? (fun pa => strPre pa e.name) with
          | none => acc
          | some _ =>
            if e.isDir then (insertDir acc.1 e.name, acc.2)
            else (insertDir acc.1 (dirname e.name), acc.2 ++ [e]))
        acc = acc := by
    induction entries with
    | nil => intro acc; rfl
    | cons e t ih => intro acc; exact ih acc
  exact h ([], [])

/-- C10: in archive mode an empty filter set selects nothing — the effect
trace is empty (no directory created, no file extracted) and the call
succeeds — whereas filesystem-mode replication with no filters mirrors the
entire source tree at the destination (every path below the destination
holds what the corresponding source path held, and the destination root
itself mirrors a single-file source). -/
theorem c10_empty_filters :
    (∀ dst rf entries,
      zipReplicate dst { removeFirst := rf, paths := [] } entries = []) ∧
    (∀ src dst fs fs1, underEqB src dst = false → underEqB dst src = false →
      GoodSrc src fs → replicateTreeCopy fs src dst = .ok fs1 →
      (∀ rel, lookupA fs1 (joinP dst rel) = lookupA fs (joinP src rel)) ∧
      lookupA fs1 dst = lookupA fs src) := by
  constructor
  · intro dst rf entries
    unfold zipReplicate
    have hpaths : ({ removeFirst := rf, paths := [] } : ZipConfig).paths = [] :=
      rfl
    rw [hpaths, zipCollect_nil_paths]
    rfl
  · intro src dst fs fs1 hdisj1 hdisj2 hg hok
    rcases treeCopyChar (underEq_refl src) (underEq_refl dst) hdisj1 hdisj2
      hg hok with ⟨hchar, _⟩
    constructor
    · intro rel
      have hne : ¬(joinP dst rel = dst) := joinP_ne_left dst rel
      rw [hchar (joinP dst rel), if_pos (underEq_join dst rel)]
      have hm : mirrorP src dst (joinP dst rel) = joinP src rel := by
        unfold mirrorP
        rw [if_neg (by simpa using hne), relSuffix_join]
      rw [hm]
    · rw [hchar dst, if_pos (underEq_refl dst)]
      have hm : mirrorP src dst dst = src := by simp [mirrorP]
      rw [hm]

/-- Witness for C10 at concrete inputs: the zip trace is empty under an
empty filter set; the concrete filesystem run mirrors the source file. -/
theorem c10_witness :
    zipReplicate "d" { removeFirst := true, paths := [] }
        [{ name := "a/b/f1", isDir := false, content := "x", fmode := 420 }] =
      [] ∧
    lookupA [("s/a.txt", ({ content := "hello", fmode := 420 } : FileData)),
             ("t/a.txt", { content := "hello", fmode := 420 })]
        (joinP "t" "a.txt") =
      lookupA [("s/a.txt", ({ content := "hello", fmode := 420 } : FileData))]
        (joinP "s" "a.txt") := by
  constructor
  · exact c10_empty_filters.1 "d" true _
  · exact (c10_empty_filters.2 "s" "t"
      [("s/a.txt", { content := "hello", fmode := 420 })]
      [("s/a.txt", { content := "hello", fmode := 420 }),
       ("t/a.txt", { content := "hello", fmode := 420 })]
      (by decide) (by decide) (by unfold GoodSrc; decide) rfl).1 "a.txt"

end RulesGo
